import Mathlib

/-!
Verification of the STL-Plot computational-geometry and visibility core.

This file gives a shallow embedding, in Lean 4, of the exact-rational
geometry kernel of the repository (module `stl_plot.fabricate.geometry`),
of the visibility / splitting / occlusion logic of `stl_plot.plot`, and of
the polyline stitching algorithm (`join_lines`), together with theorems
settling the specification claims about them.

Conventions of the embedding:
* Python `fractions.Fraction` becomes `ℚ`.
* The geometry functions are duck-typed in Python (they only read the
  `.x`/`.y` attributes of the points they are handed, and `stl_plot.plot`
  hands them 3-coordinate points); this is modelled by the type class
  `XY` providing the two planar coordinates.
* Python's `None` results become `Option.none`.
* `start`/`end` field names are kept (`end` spelled `«end»`).
-/

namespace StlPlot

/-- `geometry.Point`: a 2D point with exact rational coordinates. -/
structure Point where
  x : ℚ
  y : ℚ
deriving DecidableEq, Repr

/-- Access to the planar coordinates of a point-like value; models Python
duck typing: `geometry`'s functions read only `.x` and `.y` of the points
they receive. -/
class XY (P : Type) where
  x : P → ℚ
  y : P → ℚ

instance : XY Point where
  x := Point.x
  y := Point.y

instance : Inhabited Point :=
  ⟨⟨0, 0⟩⟩

/-- `geometry.Segment`: a directed segment between two point-like values. -/
structure Segment (P : Type) where
  start : P
  «end» : P
deriving DecidableEq, Repr

/-- `geometry.Intersection`: the record built by `Intersection.for_segments`.
The `point` field is always a plain 2D `geometry.Point`, even when the
segments carry richer points. -/
structure Intersection (P : Type) where
  segment_1 : Segment P
  segment_2 : Segment P
  point : Point
  t1 : ℚ
  t2 : ℚ
deriving DecidableEq, Repr

/-- `Intersection.for_segments`: exact segment×segment intersection.
Returns `none` for parallel segments (zero denominator `v`), otherwise
computes the parameters `t1`, `t2` by Cramer's rule and accepts the
intersection only when both lie in the half-open interval `[0, 1)`. -/
def Intersection.for_segments {P : Type} [XY P] (segment_1 segment_2 : Segment P) :
    Option (Intersection P) :=
  let s1x := XY.x segment_1.start
  let s1y := XY.y segment_1.start
  let s2x := XY.x segment_2.start
  let s2y := XY.y segment_2.start
  let d1x := XY.x segment_1.«end» - s1x
  let d1y := XY.y segment_1.«end» - s1y
  let d2x := XY.x segment_2.«end» - s2x
  let d2y := XY.y segment_2.«end» - s2y
  let v := d1y * d2x - d1x * d2y
  if v ≠ 0 then
    let t1 := (d2y * s1x - d2x * s1y - d2y * s2x + d2x * s2y) / v
    let t2 := (d1y * s1x - d1x * s1y - d1y * s2x + d1x * s2y) / v
    if 0 ≤ t1 ∧ t1 < 1 ∧ 0 ≤ t2 ∧ t2 < 1 then
      some ⟨segment_1, segment_2, ⟨s1x + d1x * t1, s1y + d1y * t1⟩, t1, t2⟩
    else
      none
  else
    none

/-- `geometry.iter_intersections`: all reported intersections of `line`
with the segments of `lines`, in order. -/
def iter_intersections {P : Type} [XY P] (lines : List (Segment P)) (line : Segment P) :
    List (Intersection P) :=
  lines.filterMap (fun i => Intersection.for_segments i line)

/-- `geometry.Simplex`: a triangle given by three point-like vertices. -/
structure Simplex (P : Type) where
  p1 : P
  p2 : P
  p3 : P
deriving DecidableEq, Repr

/-- `geometry.SimplexIntersection`: the record built by
`SimplexIntersection.for_simplex_and_point`; `point` is the query point. -/
structure SimplexIntersection (P : Type) where
  simplex : Simplex P
  point : P
  t1 : ℚ
  t2 : ℚ

/-- `SimplexIntersection.for_simplex_and_point`: exact point×triangle
containment.  Returns `none` when the triangle has no area (zero
denominator `n`); otherwise computes barycentric parameters and accepts
iff `0 ≤ t1`, `0 ≤ t2`, `t1 + t2 ≤ 1` (boundary-inclusive). -/
def SimplexIntersection.for_simplex_and_point {P : Type} [XY P]
    (simplex : Simplex P) (point : P) : Option (SimplexIntersection P) :=
  let x := XY.x point
  let y := XY.y point
  let x1 := XY.x simplex.p1
  let y1 := XY.y simplex.p1
  let d1x := XY.x simplex.p2 - x1
  let d1y := XY.y simplex.p2 - y1
  let d2x := XY.x simplex.p3 - x1
  let d2y := XY.y simplex.p3 - y1
  let n := d1y * d2x - d1x * d2y
  if n = 0 then
    none
  else
    let t1 := (d2y * x1 - d2y * x + d2x * y - d2x * y1) / n
    let t2 := (d1y * x - d1y * x1 - d1x * y + d1x * y1) / n
    if 0 ≤ t1 ∧ 0 ≤ t2 ∧ t1 + t2 ≤ 1 then
      some ⟨simplex, point, t1, t2⟩
    else
      none

/-- `geometry.iter_simplex_intersections`. -/
def iter_simplex_intersections {P : Type} [XY P] (simplexes : List (Simplex P)) (point : P) :
    List (SimplexIntersection P) :=
  simplexes.filterMap (fun i => SimplexIntersection.for_simplex_and_point i point)

/-- C1: for non-parallel segments, a reported intersection's parameters
`t1` and `t2` evaluate both segments' parametrizations
`P(t) = start + t·(end − start)` to the same point, and that point is the
stored intersection point, which is computed from segment 1's
parametrization. -/
theorem for_segments_parametrizations_agree {P : Type} [XY P]
    (s1 s2 : Segment P) (i : Intersection P)
    (h : Intersection.for_segments s1 s2 = some i) :
    XY.x s1.start + (XY.x s1.«end» - XY.x s1.start) * i.t1
      = XY.x s2.start + (XY.x s2.«end» - XY.x s2.start) * i.t2
    ∧ XY.y s1.start + (XY.y s1.«end» - XY.y s1.start) * i.t1
      = XY.y s2.start + (XY.y s2.«end» - XY.y s2.start) * i.t2
    ∧ i.point = ⟨XY.x s1.start + (XY.x s1.«end» - XY.x s1.start) * i.t1,
                 XY.y s1.start + (XY.y s1.«end» - XY.y s1.start) * i.t1⟩ := by
  simp only [Intersection.for_segments] at h
  obtain ⟨iseg1, iseg2, ipt, it1, it2⟩ := i
  split_ifs at h with hv hrange
  · simp only [Option.some.injEq, Intersection.mk.injEq] at h
    obtain ⟨h1, h2, h3, h4, h5⟩ := h
    subst h1 h2 h3 h4 h5
    refine ⟨?_, ?_, rfl⟩ <;>
    · field_simp
      ring
/-- Witness for C1 at a concrete input: the horizontal segment from (0,0)
to (2,0) and the vertical segment from (1,−1) to (1,1) intersect with
t1 = t2 = 1/2 at the point (1,0). -/
theorem for_segments_parametrizations_agree_witness :
    Intersection.for_segments (⟨⟨0, 0⟩, ⟨2, 0⟩⟩ : Segment Point) ⟨⟨1, -1⟩, ⟨1, 1⟩⟩
      = some ⟨⟨⟨0, 0⟩, ⟨2, 0⟩⟩, ⟨⟨1, -1⟩, ⟨1, 1⟩⟩, ⟨1, 0⟩, 1/2, 1/2⟩
    ∧ ((0 : ℚ) + (2 - 0) * (1/2) = 1 + (1 - 1) * (1/2)
       ∧ (0 : ℚ) + (0 - 0) * (1/2) = -1 + (1 - -1) * (1/2)
       ∧ (⟨1, 0⟩ : Point) = ⟨0 + (2 - 0) * (1/2), 0 + (0 - 0) * (1/2)⟩) := by
  have h : Intersection.for_segments (⟨⟨0, 0⟩, ⟨2, 0⟩⟩ : Segment Point) ⟨⟨1, -1⟩, ⟨1, 1⟩⟩
      = some ⟨⟨⟨0, 0⟩, ⟨2, 0⟩⟩, ⟨⟨1, -1⟩, ⟨1, 1⟩⟩, ⟨1, 0⟩, 1/2, 1/2⟩ := by
    simp only [Intersection.for_segments]
    norm_num [XY.x, XY.y, Point.mk.injEq]
  exact ⟨h, for_segments_parametrizations_agree _ _ _ h⟩

/-- The intersection point reported by `for_segments` is never the end
point of segment 1: its parameter `t1` lies in `[0, 1)`, and a non-zero
denominator forces a non-zero direction vector, so `t1 = 1` would be
needed to hit the end point. -/
theorem for_segments_point_ne_end {P : Type} [XY P]
    (s1 s2 : Segment P) (i : Intersection P)
    (h : Intersection.for_segments s1 s2 = some i) :
    i.point ≠ ⟨XY.x s1.«end», XY.y s1.«end»⟩ := by
  simp only [Intersection.for_segments] at h
  obtain ⟨iseg1, iseg2, ipt, it1, it2⟩ := i
  split_ifs at h with hv hrange
  simp only [Option.some.injEq, Intersection.mk.injEq] at h
  obtain ⟨h1, h2, h3, h4, h5⟩ := h
  subst h1 h2 h3 h4 h5
  simp only [ne_eq, Point.mk.injEq, not_and]
  intro hx hy
  set s1x := XY.x s1.start
  set s1y := XY.y s1.start
  set e1x := XY.x s1.«end»
  set e1y := XY.y s1.«end»
  set t1 := ((XY.y s2.«end» - XY.y s2.start) * s1x - (XY.x s2.«end» - XY.x s2.start) * s1y -
      (XY.y s2.«end» - XY.y s2.start) * XY.x s2.start +
      (XY.x s2.«end» - XY.x s2.start) * XY.y s2.start) /
      ((e1y - s1y) * (XY.x s2.«end» - XY.x s2.start) -
      (e1x - s1x) * (XY.y s2.«end» - XY.y s2.start)) with ht1
  obtain ⟨ht0, ht1lt, _⟩ := hrange
  have hne : t1 - 1 ≠ 0 := sub_ne_zero.mpr (ne_of_lt ht1lt)
  have hdx : e1x - s1x = 0 := by
    have : (e1x - s1x) * (t1 - 1) = 0 := by linear_combination hx
    rcases mul_eq_zero.mp this with h | h
    · exact h
    · exact absurd h hne
  have hdy : e1y - s1y = 0 := by
    have : (e1y - s1y) * (t1 - 1) = 0 := by linear_combination hy
    rcases mul_eq_zero.mp this with h | h
    · exact h
    · exact absurd h hne
  exact hv (by rw [hdx, hdy]; ring)

/-- C2: if two boundary segments are consistently oriented so that the
shared vertex `v` is the end of `e1` and the start of `e2`, then at most
one of the two calls `for_segments(boundary_edge, candidate)` reports an
intersection located at `v`: the half-open parameter range `[0, 1)`
excludes the end point of a boundary edge.  (Only the planar coordinates
of `v` take part, matching the 2D intersection point record.) -/
theorem shared_vertex_reported_at_most_once {P : Type} [XY P]
    (e1 e2 c : Segment P) (v : P)
    (h1 : e1.«end» = v) (h2 : e2.start = v) :
    ¬((∃ i1, Intersection.for_segments e1 c = some i1
          ∧ i1.point = ⟨XY.x v, XY.y v⟩)
      ∧ (∃ i2, Intersection.for_segments e2 c = some i2
          ∧ i2.point = ⟨XY.x v, XY.y v⟩)) := by
  rintro ⟨⟨i1, hi1, hp1⟩, -⟩
  subst h1
  exact for_segments_point_ne_end e1 c i1 hi1 hp1

/-- Witness for C2 at a concrete input: edges (0,0)→(1,0) and
(1,0)→(1,1) of a boundary share the vertex (1,0); no candidate segment
can have the shared vertex reported by both edges — exhibited with the
candidate (1,-5)→(1,5) for the hypothesis side conditions. -/
theorem shared_vertex_reported_at_most_once_witness :
    (⟨⟨0, 0⟩, ⟨1, 0⟩⟩ : Segment Point).«end» = ⟨1, 0⟩
    ∧ (⟨⟨1, 0⟩, ⟨1, 1⟩⟩ : Segment Point).start = ⟨1, 0⟩
    ∧ ¬((∃ i1, Intersection.for_segments (⟨⟨0, 0⟩, ⟨1, 0⟩⟩ : Segment Point) ⟨⟨1, -5⟩, ⟨1, 5⟩⟩ = some i1
            ∧ i1.point = ⟨XY.x (⟨1, 0⟩ : Point), XY.y (⟨1, 0⟩ : Point)⟩)
        ∧ (∃ i2, Intersection.for_segments (⟨⟨1, 0⟩, ⟨1, 1⟩⟩ : Segment Point) ⟨⟨1, -5⟩, ⟨1, 5⟩⟩ = some i2
            ∧ i2.point = ⟨XY.x (⟨1, 0⟩ : Point), XY.y (⟨1, 0⟩ : Point)⟩)) :=
  ⟨rfl, rfl, shared_vertex_reported_at_most_once _ _ _ (⟨1, 0⟩ : Point) rfl rfl⟩

/-- C9: degenerate geometry is not an error.  A zero intersection
denominator `v` (parallel or collinear segments) makes `for_segments`
return `none`, and a zero containment denominator `n` (zero-area
triangle) makes `for_simplex_and_point` return `none`; both functions are
total, so processing proceeds. -/
theorem degenerate_denominators_give_none {P : Type} [XY P] :
    (∀ s1 s2 : Segment P,
        (XY.y s1.«end» - XY.y s1.start) * (XY.x s2.«end» - XY.x s2.start)
          - (XY.x s1.«end» - XY.x s1.start) * (XY.y s2.«end» - XY.y s2.start) = 0 →
        Intersection.for_segments s1 s2 = none)
    ∧ (∀ (sx : Simplex P) (p : P),
        (XY.y sx.p2 - XY.y sx.p1) * (XY.x sx.p3 - XY.x sx.p1)
          - (XY.x sx.p2 - XY.x sx.p1) * (XY.y sx.p3 - XY.y sx.p1) = 0 →
        SimplexIntersection.for_simplex_and_point sx p = none) := by
  constructor
  · intro s1 s2 h
    simp only [Intersection.for_segments]
    rw [if_neg (not_not_intro h)]
  · intro sx p h
    simp only [SimplexIntersection.for_simplex_and_point]
    rw [if_pos h]

/-- Witness for C9 at concrete inputs: the parallel horizontal segments
(0,0)→(1,0) and (0,1)→(2,1) yield no intersection, and the degenerate
collinear triangle (0,0),(1,1),(2,2) contains no point (not even one on
it, here (1,1)). -/
theorem degenerate_denominators_give_none_witness :
    Intersection.for_segments (⟨⟨0, 0⟩, ⟨1, 0⟩⟩ : Segment Point) ⟨⟨0, 1⟩, ⟨2, 1⟩⟩ = none
    ∧ SimplexIntersection.for_simplex_and_point (⟨⟨0, 0⟩, ⟨1, 1⟩, ⟨2, 2⟩⟩ : Simplex Point) ⟨1, 1⟩ = none :=
  ⟨(@degenerate_denominators_give_none Point _).1 _ _ (by norm_num [XY.x, XY.y]),
   (@degenerate_denominators_give_none Point _).2 _ _ (by norm_num [XY.x, XY.y])⟩

/-- `geometry.Point._hashable_key`: the key used by `util.Hashable` for
both equality and hashing of 2D points. -/
def Point.hashable_key (p : Point) : ℚ × ℚ :=
  (p.x, p.y)

/-- `util.Hashable.__eq__` specialised to `geometry.Point`: same type and
equal `_hashable_key`s. -/
def Point.eq (p q : Point) : Bool :=
  decide (p.hashable_key = q.hashable_key)

namespace Plot

/-- `plot.Point`: the 3D subclass of `geometry.Point` carrying the depth
coordinate `z`. -/
structure Point extends StlPlot.Point where
  z : ℚ
deriving DecidableEq, Repr

instance : XY Point where
  x p := p.x
  y p := p.y

/-- `plot.Point` inherits `_hashable_key` unchanged from
`geometry.Point`: the key is still `(x, y)` — the depth coordinate `z`
does not take part. -/
def Point.hashable_key (p : Point) : ℚ × ℚ :=
  p.toPoint.hashable_key

/-- `util.Hashable.__eq__` specialised to `plot.Point`. -/
def Point.eq (p q : Point) : Bool :=
  decide (p.hashable_key = q.hashable_key)

end Plot

/-- C3 as stated: value-based equality for both point types, where two
points are equal iff ALL their coordinates (including `z` for the 3D
subclass) are exactly equal. -/
def ClaimC3 : Prop :=
  (∀ p q : Point, Point.eq p q = true ↔ p.x = q.x ∧ p.y = q.y)
  ∧ (∀ p q : Plot.Point, Plot.Point.eq p q = true ↔ p.x = q.x ∧ p.y = q.y ∧ p.z = q.z)

/-- Counterexample to C3: the 3D points (0,0,0) and (0,0,1) differ in
their `z` coordinate yet compare equal, because `plot.Point` inherits
`_hashable_key` — hence `__eq__` and `__hash__` — from the 2D class,
which only uses `(x, y)`. -/
theorem point_equality_ignores_z_counterexample : ¬ClaimC3 := by
  intro h
  have h00 : Plot.Point.eq ⟨⟨0, 0⟩, 0⟩ ⟨⟨0, 0⟩, 1⟩ = true := by
    simp [Plot.Point.eq, Plot.Point.hashable_key, Point.hashable_key]
  have := (h.2 ⟨⟨0, 0⟩, 0⟩ ⟨⟨0, 0⟩, 1⟩).mp h00
  exact absurd this.2.2 (by norm_num)

/-- C3 amended: equality of both point types is structural on the
planar key `(x, y)` only — exact coordinate equality for 2D points, but
the 3D subclass compares (and hashes) ignoring `z`.  Hashing is a fixed
function of `_hashable_key` (`hash(self._hashable_key())` in
`util.Hashable`), so equal points hash equally: this is stated for every
possible hash function `h` applied to the key. -/
theorem point_equality_is_planar_key_equality :
    (∀ p q : Point, Point.eq p q = true ↔ p.x = q.x ∧ p.y = q.y)
    ∧ (∀ p q : Plot.Point, Plot.Point.eq p q = true ↔ p.x = q.x ∧ p.y = q.y)
    ∧ (∀ (h : ℚ × ℚ → ℕ) (p q : Point),
        Point.eq p q = true → h p.hashable_key = h q.hashable_key)
    ∧ (∀ (h : ℚ × ℚ → ℕ) (p q : Plot.Point),
        Plot.Point.eq p q = true → h p.hashable_key = h q.hashable_key) := by
  refine ⟨?_, ?_, ?_, ?_⟩
  · intro p q
    simp [Point.eq, Point.hashable_key, Prod.ext_iff]
  · intro p q
    simp [Plot.Point.eq, Plot.Point.hashable_key, Point.hashable_key, Prod.ext_iff]
  · intro h p q hpq
    simp only [Point.eq, decide_eq_true_eq] at hpq
    rw [hpq]
  · intro h p q hpq
    simp only [Plot.Point.eq, decide_eq_true_eq] at hpq
    rw [hpq]

/-- Witness for the amended C3 at concrete inputs: the 2D points (1,2)
and (1,2) are equal with equal coordinates, and two 3D points with the
same planar key hash equally under any hash function of the key (here
the constant-37 function). -/
theorem point_equality_is_planar_key_equality_witness :
    (Point.eq ⟨1, 2⟩ ⟨1, 2⟩ = true ↔ (1 : ℚ) = 1 ∧ (2 : ℚ) = 2)
    ∧ (Plot.Point.eq ⟨⟨0, 0⟩, 0⟩ ⟨⟨0, 0⟩, 1⟩ = true
        → (fun _ : ℚ × ℚ => 37) (Plot.Point.hashable_key ⟨⟨0, 0⟩, 0⟩)
          = (fun _ : ℚ × ℚ => 37) (Plot.Point.hashable_key ⟨⟨0, 0⟩, 1⟩)) :=
  ⟨point_equality_is_planar_key_equality.1 ⟨1, 2⟩ ⟨1, 2⟩,
   fun h => point_equality_is_planar_key_equality.2.2.2 (fun _ => 37) ⟨⟨0, 0⟩, 0⟩ ⟨⟨0, 0⟩, 1⟩ h⟩

/-- Modelled from the spec: the repository imports `linalg.interpolate`
from a module that is not present in the source tree; the spec describes
it as "a generic linear interpolation function `interpolate(a, b, t)`
used on coordinates and depths", with the segment parametrization
`P(t) = start + t·(end − start)`. -/
def interpolate (a b t : ℚ) : ℚ :=
  a + (b - a) * t

namespace Plot

/-- `plot.main.iter_border_intersections`: the split parameters generated
for a kept segment — always 0 and 1, plus the candidate-side parameter
`t2` of every boundary intersection whose candidate depth `drawn_z` is
`≤` the boundary depth `border_z` at the crossing. -/
def iter_border_intersections (border_segments : List (Segment Point))
    (segment : Segment Point) : List ℚ :=
  0 :: 1 ::
    (iter_intersections border_segments segment).filterMap (fun i =>
      let border_z := interpolate i.segment_1.start.z i.segment_1.«end».z i.t1
      let drawn_z := interpolate i.segment_2.start.z i.segment_2.«end».z i.t2
      if drawn_z ≤ border_z then some i.t2 else none)

/-- `plot.main.point_on_segment`: the 3D point at parameter `t` of a
segment, each coordinate linearly interpolated. -/
def point_on_segment (segment : Segment Point) (t : ℚ) : Point :=
  ⟨⟨interpolate (XY.x segment.start) (XY.x segment.«end») t,
    interpolate (XY.y segment.start) (XY.y segment.«end») t⟩,
    interpolate segment.start.z segment.«end».z t⟩

/-- `plot.main.has_face_intersections`: whether some projected triangle
contains `point` and is strictly closer to the viewer there (depth
interpolated barycentrically via `t1`, `t2`). -/
def has_face_intersections (simplexes : List (Simplex Point)) (point : Point) : Bool :=
  (iter_simplex_intersections simplexes point).any (fun i =>
    let simplex_p1_z := i.simplex.p1.z
    let simplex_p2_z := i.simplex.p2.z
    let simplex_p3_z := i.simplex.p3.z
    let simplex_z := simplex_p1_z + (simplex_p2_z - simplex_p1_z) * i.t1
        + (simplex_p3_z - simplex_p1_z) * i.t2
    decide (i.point.z < simplex_z))

/-- The per-sub-segment occlusion filter of `plot.main`: a sub-segment
`(a, b)` of `segment` survives iff the point at the midpoint parameter
`(a + b) / 2` has no closer containing face. -/
def subsegment_survives (simplexes : List (Simplex Point))
    (segment : Segment Point) (a b : ℚ) : Bool :=
  !(has_face_intersections simplexes (point_on_segment segment ((a + b) / 2)))

end Plot

/-- C4 as stated: every split parameter other than 0 and 1 comes from a
boundary intersection at which the boundary's interpolated depth is `≤`
the candidate's interpolated depth. -/
def ClaimC4 : Prop :=
  ∀ (borders : List (Segment Plot.Point)) (seg : Segment Plot.Point) (t : ℚ),
    t ∈ Plot.iter_border_intersections borders seg →
    t = 0 ∨ t = 1 ∨
      ∃ i ∈ iter_intersections borders seg, t = i.t2 ∧
        interpolate i.segment_1.start.z i.segment_1.«end».z i.t1
          ≤ interpolate i.segment_2.start.z i.segment_2.«end».z i.t2

/-- Counterexample to C4: a boundary segment at depth 10 (closer to the
viewer) crossing a candidate at depth 0 yields the split parameter 1/2,
yet the boundary depth 10 is not `≤` the candidate depth 0 — the code
keeps the split when the CANDIDATE depth is `≤` the BOUNDARY depth
(`drawn_z <= border_z`), the reverse of the claim's inequality. -/
theorem split_depth_filter_direction_counterexample : ¬ClaimC4 := by
  intro h
  have hmem : (1/2 : ℚ) ∈ Plot.iter_border_intersections
      [⟨⟨⟨0, -1⟩, 10⟩, ⟨⟨0, 1⟩, 10⟩⟩] ⟨⟨⟨-1, 0⟩, 0⟩, ⟨⟨1, 0⟩, 0⟩⟩ := by
    simp only [Plot.iter_border_intersections, iter_intersections,
      Intersection.for_segments, List.filterMap_cons, List.filterMap_nil]
    norm_num [XY.x, XY.y, interpolate]
  rcases h _ _ _ hmem with h0 | h1 | ⟨i, hi, -, hle⟩
  · norm_num at h0
  · norm_num at h1
  · simp only [iter_intersections, Intersection.for_segments,
      List.filterMap_cons, List.filterMap_nil] at hi
    norm_num [XY.x, XY.y] at hi
    rcases hi with ⟨rfl⟩
    norm_num [interpolate] at hle

/-- Membership in the split-parameter stream: a parameter is yielded iff
it is 0 or 1 or is the `t2` of a reported boundary intersection at which
the candidate's interpolated depth is at most the boundary's. -/
theorem mem_iter_border_intersections_iff :
    ∀ (borders : List (Segment Plot.Point)) (seg : Segment Plot.Point) (t : ℚ),
      t ∈ Plot.iter_border_intersections borders seg ↔
        (t = 0 ∨ t = 1 ∨
          ∃ i ∈ iter_intersections borders seg, t = i.t2 ∧
            interpolate i.segment_2.start.z i.segment_2.«end».z i.t2
              ≤ interpolate i.segment_1.start.z i.segment_1.«end».z i.t1) := by
  intro borders seg t
  simp only [Plot.iter_border_intersections, List.mem_cons, List.mem_filterMap]
  constructor
  · rintro (rfl | rfl | ⟨i, hi, hf⟩)
    · exact Or.inl rfl
    · exact Or.inr (Or.inl rfl)
    · simp only [Option.ite_none_right_eq_some, Option.some.injEq] at hf
      exact Or.inr (Or.inr ⟨i, hi, hf.2.symm, hf.2 ▸ hf.1⟩)
  · rintro (rfl | rfl | ⟨i, hi, rfl, hle⟩)
    · exact Or.inl rfl
    · exact Or.inr (Or.inl rfl)
    · refine Or.inr (Or.inr ⟨i, hi, ?_⟩)
      simp only [Option.ite_none_right_eq_some, Option.some.injEq]
      exact ⟨hle, trivial⟩

/-- C4 amended: a parameter is in the split set iff it is 0 or 1 or is
the candidate-side parameter `t2` of a reported boundary intersection at
which the CANDIDATE's interpolated depth is `≤` the BOUNDARY's
interpolated depth — depth grows toward the viewer, so the split is kept
exactly where the silhouette edge is at or in front of the candidate,
and crossings where the silhouette lies strictly behind are ignored. -/
theorem split_kept_iff_border_at_or_in_front :
    ∀ (borders : List (Segment Plot.Point)) (seg : Segment Plot.Point) (t : ℚ),
      t ∈ Plot.iter_border_intersections borders seg ↔
        (t = 0 ∨ t = 1 ∨
          ∃ i ∈ iter_intersections borders seg, t = i.t2 ∧
            interpolate i.segment_2.start.z i.segment_2.«end».z i.t2
              ≤ interpolate i.segment_1.start.z i.segment_1.«end».z i.t1) :=
  mem_iter_border_intersections_iff

/-- A successful containment test records the queried simplex and point
unchanged. -/
theorem for_simplex_and_point_fields {P : Type} [XY P]
    (s : Simplex P) (p : P) (i : SimplexIntersection P)
    (h : SimplexIntersection.for_simplex_and_point s p = some i) :
    i.simplex = s ∧ i.point = p := by
  simp only [SimplexIntersection.for_simplex_and_point] at h
  obtain ⟨isim, ipt, it1, it2⟩ := i
  split_ifs at h
  simp only [Option.some.injEq, SimplexIntersection.mk.injEq] at h
  exact ⟨h.1.symm, h.2.1.symm⟩

/-- C6: a sub-segment `(a, b)` of a kept segment is discarded iff some
projected triangle contains the point at the midpoint parameter
`(a + b)/2` (boundary-inclusive, per the point×triangle test) and that
triangle's barycentrically interpolated depth there is strictly greater
(closer to the viewer) than the sub-segment's own interpolated depth. -/
theorem subsegment_discarded_iff_closer_face :
    ∀ (simplexes : List (Simplex Plot.Point)) (seg : Segment Plot.Point) (a b : ℚ),
      Plot.subsegment_survives simplexes seg a b = false ↔
        ∃ s ∈ simplexes, ∃ i,
          SimplexIntersection.for_simplex_and_point s
              (Plot.point_on_segment seg ((a + b) / 2)) = some i ∧
          (Plot.point_on_segment seg ((a + b) / 2)).z
            < s.p1.z + (s.p2.z - s.p1.z) * i.t1 + (s.p3.z - s.p1.z) * i.t2 := by
  intro simplexes seg a b
  simp only [Plot.subsegment_survives, Bool.not_eq_false', Plot.has_face_intersections,
    iter_simplex_intersections, List.any_eq_true, List.mem_filterMap,
    decide_eq_true_eq]
  constructor
  · rintro ⟨i, ⟨s, hs, hsome⟩, hlt⟩
    obtain ⟨hsim, hpt⟩ := for_simplex_and_point_fields _ _ _ hsome
    exact ⟨s, hs, i, hsome, by rw [← hsim, ← hpt]; exact hlt⟩
  · rintro ⟨s, hs, i, hsome, hlt⟩
    obtain ⟨hsim, hpt⟩ := for_simplex_and_point_fields _ _ _ hsome
    exact ⟨i, ⟨s, hs, hsome⟩, by rw [hsim, hpt]; exact hlt⟩

namespace Plot

/-- `plot.main.min_angle`: the crease threshold, "slightly more than
2·π divided by $fn" with $fn = 32.  (The Python float literal 6.3/32 is
idealized as the real number 6.3/32.) -/
noncomputable def min_angle : ℝ :=
  6.3 / 32

/-- The data `plot.main.make_segment` obtains for one mesh edge from the
external mesh/projection collaborators (the `polyhedra` and `linalg`
modules are not in the source tree): the depth-axis components of the two
adjacent projected face normals and the dihedral angle between the faces.
Modelled from the spec: the dihedral angle is "the angle between two
faces sharing an edge, measured through the solid". -/
structure EdgeView where
  left_normal_z : ℝ
  right_normal_z : ℝ
  dihedral_angle : ℝ

/-- `normal_z(edge_view) > 0` for the left adjacent face. -/
def left_face_visible (e : EdgeView) : Prop :=
  0 < e.left_normal_z

/-- `normal_z(edge_view.opposite) > 0` for the right adjacent face. -/
def right_face_visible (e : EdgeView) : Prop :=
  0 < e.right_normal_z

/-- The `is_edge` classification computed by `plot.main.make_segment`:
`left_face_visible and right_face_visible and
math.pi - dihedral_angle > min_angle`. -/
def make_segment_is_edge (e : EdgeView) : Prop :=
  left_face_visible e ∧ right_face_visible e ∧ min_angle < Real.pi - e.dihedral_angle

end Plot

/-- C5 as stated: an edge is a crease iff both adjacent faces are
front-visible and the dihedral angle DEVIATES from the straight angle π
by more than the threshold (i.e. `|π − angle| > min_angle`). -/
def ClaimC5 : Prop :=
  ∀ e : Plot.EdgeView,
    Plot.make_segment_is_edge e ↔
      (Plot.left_face_visible e ∧ Plot.right_face_visible e
        ∧ Plot.min_angle < |Real.pi - e.dihedral_angle|)

/-- Counterexample to C5: a reflex edge with dihedral angle 3π/2 between
two front-visible faces deviates from π by π/2, far more than the
threshold, yet the code computes `π − 3π/2 = −π/2 < min_angle` and does
NOT classify it as a crease: the signed difference, not the deviation, is
compared. -/
theorem crease_uses_signed_difference_counterexample : ¬ClaimC5 := by
  intro h
  have hpi := Real.pi_gt_three
  have hnot : ¬ Plot.make_segment_is_edge ⟨1, 1, 3 * Real.pi / 2⟩ := by
    simp only [Plot.make_segment_is_edge, Plot.left_face_visible,
      Plot.right_face_visible, Plot.min_angle, not_and]
    intro _ _
    simp only [not_lt]
    nlinarith
  apply hnot
  refine (h ⟨1, 1, 3 * Real.pi / 2⟩).mpr
    ⟨by norm_num [Plot.left_face_visible], by norm_num [Plot.right_face_visible], ?_⟩
  have habs : |Real.pi - 3 * Real.pi / 2| = Real.pi / 2 := by
    rw [abs_of_neg (by nlinarith)]
    ring
  rw [habs]
  simp only [Plot.min_angle]
  nlinarith

/-- C5 amended: an edge is a crease iff both adjacent faces are
front-visible AND the dihedral angle is on the convex side of straight
(strictly less than π) AND it deviates from π by more than the threshold;
equivalently, the code compares the signed difference `π − angle` against
the threshold, so reflex folds (angle > π) are never creases however far
they deviate from straight. -/
theorem crease_iff_convex_deviation_exceeds_threshold :
    ∀ e : Plot.EdgeView,
      Plot.make_segment_is_edge e ↔
        (Plot.left_face_visible e ∧ Plot.right_face_visible e
          ∧ e.dihedral_angle < Real.pi
          ∧ Plot.min_angle < |Real.pi - e.dihedral_angle|) := by
  intro e
  unfold Plot.make_segment_is_edge
  constructor
  · rintro ⟨h1, h2, h3⟩
    have hlt : e.dihedral_angle < Real.pi := by
      have : (0 : ℝ) < Plot.min_angle := by norm_num [Plot.min_angle]
      linarith [sub_pos.mp (lt_trans this h3)]
    refine ⟨h1, h2, hlt, ?_⟩
    rwa [abs_of_pos (sub_pos.mpr hlt)]
  · rintro ⟨h1, h2, hlt, habs⟩
    rw [abs_of_pos (sub_pos.mpr hlt)] at habs
    exact ⟨h1, h2, habs⟩

/-- The guard of `for_segments` places both parameters of a reported
intersection in the half-open interval `[0, 1)`. -/
theorem for_segments_params_mem_Ico {P : Type} [XY P]
    (s1 s2 : Segment P) (i : Intersection P)
    (h : Intersection.for_segments s1 s2 = some i) :
    0 ≤ i.t1 ∧ i.t1 < 1 ∧ 0 ≤ i.t2 ∧ i.t2 < 1 := by
  simp only [Intersection.for_segments] at h
  obtain ⟨iseg1, iseg2, ipt, it1, it2⟩ := i
  split_ifs at h with hv hrange
  simp only [Option.some.injEq, Intersection.mk.injEq] at h
  obtain ⟨-, -, -, h4, h5⟩ := h
  subst h4 h5
  exact hrange

namespace Plot

/-- `sorted(set(iter_border_intersections(segment)))` in `plot.main`:
the deduplicated, ascending list of split parameters of a kept segment. -/
def border_positions (border_segments : List (Segment Point))
    (segment : Segment Point) : List ℚ :=
  (iter_border_intersections border_segments segment).dedup.mergeSort

end Plot

/-- Every split parameter lies in the closed unit interval. -/
theorem mem_iter_border_intersections_bounds
    (borders : List (Segment Plot.Point)) (seg : Segment Plot.Point) (t : ℚ)
    (h : t ∈ Plot.iter_border_intersections borders seg) :
    0 ≤ t ∧ t ≤ 1 := by
  rcases (mem_iter_border_intersections_iff borders seg t).mp h with rfl | rfl | ⟨i, hi, rfl, -⟩
  · norm_num
  · norm_num
  · obtain ⟨b, -, hb⟩ := List.mem_filterMap.mp hi
    obtain ⟨-, -, h0, h1⟩ := for_segments_params_mem_Ico _ _ _ hb
    exact ⟨h0, le_of_lt h1⟩

/-- In a `≤`-sorted list, an element that is a lower bound of the list is
its head. -/
theorem sorted_head_eq_of_min {L : List ℚ} (hs : L.Sorted (· ≤ ·))
    {a : ℚ} (ha : a ∈ L) (hmin : ∀ x ∈ L, a ≤ x) : L.head? = some a := by
  cases L with
  | nil => cases ha
  | cons b t =>
    have hb : b = a := by
      rcases List.mem_cons.mp ha with rfl | hat
      · rfl
      · exact le_antisymm ((List.sorted_cons.mp hs).1 a hat) (hmin b (List.mem_cons_self b t))
    rw [hb]
    rfl

/-- In a `≤`-sorted list, an element that is an upper bound of the list
is its last element. -/
theorem sorted_getLast_eq_of_max : ∀ (L : List ℚ), L.Sorted (· ≤ ·) →
    ∀ a : ℚ, a ∈ L → (∀ x ∈ L, x ≤ a) → L.getLast? = some a := by
  intro L
  induction L with
  | nil => intro _ a ha; cases ha
  | cons b t ih =>
    intro hs a ha hmax
    cases t with
    | nil =>
      rcases List.mem_cons.mp ha with rfl | hat
      · rfl
      · cases hat
    | cons c u =>
      have hat : a ∈ c :: u := by
        rcases List.mem_cons.mp ha with rfl | hat
        · have hac : a ≤ c := (List.sorted_cons.mp hs).1 c (List.mem_cons_self c u)
          have hca : c ≤ a := hmax c (List.mem_cons_of_mem _ (List.mem_cons_self c u))
          rw [le_antisymm hac hca]
          exact List.mem_cons_self c u
        · exact hat
      rw [List.getLast?_cons_cons]
      exact ih (List.sorted_cons.mp hs).2 a hat
        (fun x hx => hmax x (List.mem_cons_of_mem _ hx))

/-- In a `≤`-chained list whose head is `≤ x` and whose last element is
`≥ x`, some adjacent pair brackets `x`. -/
theorem chain_bracket : ∀ (L : List ℚ), L.Chain' (· ≤ ·) → 2 ≤ L.length →
    ∀ (x a b : ℚ), L.head? = some a → L.getLast? = some b → a ≤ x → x ≤ b →
      ∃ p ∈ L.zip L.tail, p.1 ≤ x ∧ x ≤ p.2 := by
  intro L
  induction L with
  | nil => intro _ hlen; simp at hlen
  | cons c rest ih =>
    intro hch hlen x a b hhead hlast hax hxb
    have hca : c = a := by
      simpa using hhead
    subst hca
    cases rest with
    | nil => simp at hlen
    | cons d u =>
      by_cases hxd : x ≤ d
      · refine ⟨(c, d), ?_, hax, hxd⟩
        simp [List.zip_cons_cons]
      · push_neg at hxd
        cases u with
        | nil =>
          have hdb : d = b := by
            simpa using hlast
          exact absurd (hdb ▸ hxb) (not_le.mpr hxd)
        | cons e w =>
          have hrec := ih ((List.chain'_cons'.mp hch).2) (by simp) x d b rfl
            (by rw [List.getLast?_cons_cons] at hlast; exact hlast) (le_of_lt hxd) hxb
          obtain ⟨p, hp, hpx⟩ := hrec
          refine ⟨p, ?_, hpx⟩
          simp only [List.tail_cons, List.zip_cons_cons, List.mem_cons]
          right
          simpa using hp

/-- C10: the deduplicated, ascending split-parameter list of a kept
segment starts at 0, ends at 1, is strictly increasing, consists of
values in [0, 1] whose non-endpoint members are `t2` parameters of
reported intersections (hence lie in `[0, 1)`), has at least two entries
(so at least one sub-segment is produced), and its consecutive pairs tile
the interval [0, 1] without gaps or overlaps. -/
theorem split_positions_partition_unit_interval :
    ∀ (borders : List (Segment Plot.Point)) (seg : Segment Plot.Point),
      (Plot.border_positions borders seg).head? = some 0
      ∧ (Plot.border_positions borders seg).getLast? = some 1
      ∧ (Plot.border_positions borders seg).Chain' (· < ·)
      ∧ (∀ t ∈ Plot.border_positions borders seg, 0 ≤ t ∧ t ≤ 1)
      ∧ (∀ t ∈ Plot.border_positions borders seg, t ≠ 0 → t ≠ 1 →
          ∃ i ∈ iter_intersections borders seg, t = i.t2 ∧ 0 ≤ t ∧ t < 1)
      ∧ 2 ≤ (Plot.border_positions borders seg).length
      ∧ (∀ x : ℚ, 0 ≤ x → x ≤ 1 →
          ∃ p ∈ (Plot.border_positions borders seg).zip
              (Plot.border_positions borders seg).tail,
            p.1 ≤ x ∧ x ≤ p.2) := by
  intro borders seg
  have hmemL : ∀ t : ℚ, t ∈ Plot.border_positions borders seg ↔
      t ∈ Plot.iter_border_intersections borders seg := by
    intro t
    rw [Plot.border_positions, List.mem_mergeSort, List.mem_dedup]
  have hsorted : (Plot.border_positions borders seg).Sorted (· ≤ ·) :=
    List.sorted_mergeSort' _
  have hnodup : (Plot.border_positions borders seg).Nodup :=
    ((List.mergeSort_perm _ _).nodup_iff).mpr
      (List.nodup_dedup _)
  have hsortlt : (Plot.border_positions borders seg).Sorted (· < ·) :=
    hsorted.lt_of_le hnodup
  have h0 : (0 : ℚ) ∈ Plot.border_positions borders seg :=
    (hmemL 0).mpr (by simp [Plot.iter_border_intersections])
  have h1 : (1 : ℚ) ∈ Plot.border_positions borders seg :=
    (hmemL 1).mpr (by simp [Plot.iter_border_intersections])
  have hbounds : ∀ t ∈ Plot.border_positions borders seg, 0 ≤ t ∧ t ≤ 1 :=
    fun t ht => mem_iter_border_intersections_bounds borders seg t ((hmemL t).mp ht)
  have hhead : (Plot.border_positions borders seg).head? = some 0 :=
    sorted_head_eq_of_min hsorted h0 (fun x hx => (hbounds x hx).1)
  have hlast : (Plot.border_positions borders seg).getLast? = some 1 :=
    sorted_getLast_eq_of_max _ hsorted 1 h1 (fun x hx => (hbounds x hx).2)
  have hlen : 2 ≤ (Plot.border_positions borders seg).length := by
    rcases hL : Plot.border_positions borders seg with - | ⟨a, - | ⟨b, t⟩⟩
    · rw [hL] at h0
      cases h0
    · rw [hL] at h0 h1
      have e0 : a = 0 := (List.mem_singleton.mp h0).symm
      have e1 : a = 1 := (List.mem_singleton.mp h1).symm
      rw [e0] at e1
      norm_num at e1
    · simp
  refine ⟨hhead, hlast, hsortlt.chain', hbounds, ?_, hlen, ?_⟩
  · intro t ht ht0 ht1
    rcases (mem_iter_border_intersections_iff borders seg t).mp ((hmemL t).mp ht) with
      rfl | rfl | ⟨i, hi, rfl, -⟩
    · exact absurd rfl ht0
    · exact absurd rfl ht1
    · obtain ⟨b, -, hb⟩ := List.mem_filterMap.mp hi
      obtain ⟨-, -, ht2a, ht2b⟩ := for_segments_params_mem_Ico _ _ _ hb
      exact ⟨i, hi, rfl, ht2a, ht2b⟩
  · intro x hx0 hx1
    exact chain_bracket _ (hsorted.chain') hlen x 0 1 hhead hlast hx0 hx1

/-- Witness for C10 at a concrete input: with no boundary segments at all
and the unit segment at depth 0, some consecutive split-parameter pair
brackets the interior parameter 1/2. -/
theorem split_positions_partition_unit_interval_witness :
    (0 : ℚ) ≤ 1/2 ∧ (1/2 : ℚ) ≤ 1
    ∧ ∃ p ∈ (Plot.border_positions [] ⟨⟨⟨0, 0⟩, 0⟩, ⟨⟨1, 0⟩, 0⟩⟩).zip
        (Plot.border_positions [] ⟨⟨⟨0, 0⟩, 0⟩, ⟨⟨1, 0⟩, 0⟩⟩).tail,
      p.1 ≤ 1/2 ∧ 1/2 ≤ p.2 :=
  ⟨by norm_num, by norm_num,
   (split_positions_partition_unit_interval [] ⟨⟨⟨0, 0⟩, 0⟩, ⟨⟨1, 0⟩, 0⟩⟩).2.2.2.2.2.2
     (1/2) (by norm_num) (by norm_num)⟩

section Stitching

/-- `plot.Line`: an ordered sequence of points.  The stitching code is
duck-typed in the points (it only compares them for equality and uses
them as dict keys), so the embedding is generic in the point type `α`. -/
structure Line (α : Type) where
  points : List α
deriving DecidableEq, Repr

variable {α : Type} [DecidableEq α] [Inhabited α]

namespace Line

/-- `Line.start`: `self.points[0]`. -/
def start (l : Line α) : α :=
  l.points.head?.getD default

/-- `Line.end`: `self.points[-1]`. -/
def «end» (l : Line α) : α :=
  l.points.getLast?.getD default

/-- `Line.reverse`. -/
def reverse (l : Line α) : Line α :=
  ⟨l.points.reverse⟩

/-- `Line.join`: concatenation dropping the duplicated shared point.
(The Python code asserts `line1.end == line2.start`; the assertion holds
at every call site, as established by the invariants below.) -/
def join (line1 line2 : Line α) : Line α :=
  ⟨line1.points ++ line2.points.tail⟩

end Line

/-- The unordered adjacent pairs of a list of points. -/
def adjPairs : List α → List (Sym2 α)
  | [] => []
  | [_] => []
  | a :: b :: rest => s(a, b) :: adjPairs (b :: rest)

/-- The adjacent unordered point pairs of a polyline. -/
def Line.edges (l : Line α) : List (Sym2 α) :=
  adjPairs l.points

/-- The state of `join_lines`: the Python dict `lines_by_ends`, modelled
as its association list in insertion order. -/
abbrev LineMap (α : Type) := List (α × Line α)

/-- `lines_by_ends.pop(k, None)`: the value stored at key `k` (if any)
and the map with that entry removed. -/
def pop : LineMap α → α → Option (Line α) × LineMap α
  | [], _ => (none, [])
  | e :: rest, k =>
    if e.1 = k then
      (some e.2, rest)
    else
      let r := pop rest k
      (r.1, e :: r.2)

/-- `lines_by_ends[k] = l`: Python dict assignment — replace in place if
the key is present, append otherwise. -/
def insertEntry : LineMap α → α → Line α → LineMap α
  | [], k, l => [(k, l)]
  | e :: rest, k, l =>
    if e.1 = k then
      (k, l) :: rest
    else
      e :: insertEntry rest k l

/-- The `while True` loop of `join_lines`, fuelled: pop a partner ending
at the current line's end (trying the line as given, then reversed),
orient it, drop its other index entry, join, and repeat.  One map entry
is consumed per iteration, so any `fuel > m.length` is enough for the
fuel to never run out (`joinLoop_fuel_irrelevant` below). -/
def joinLoop : Nat → LineMap α → Line α → Nat → LineMap α × Line α × Nat
  | 0, m, line, count => (m, line, count)
  | fuel + 1, m, line, count =>
    match pop m line.«end» with
    | (some other, m') =>
      let other' := if other.start = line.«end» then other else other.reverse
      joinLoop fuel (pop m' other'.«end»).2 (Line.join line other') (count + 1)
    | (none, _) =>
      let line' := line.reverse
      match pop m line'.«end» with
      | (some other, m') =>
        let other' := if other.start = line'.«end» then other else other.reverse
        joinLoop fuel (pop m' other'.«end»).2 (Line.join line' other') (count + 1)
      | (none, _) => (m, line', count)

/-- The `for line in lines` loop of `join_lines`; also returns the number
of joins performed (each `Line.join` call counts one). -/
def join_lines_aux : List (Line α) → LineMap α → Nat → LineMap α × Nat
  | [], m, count => (m, count)
  | line :: rest, m, count =>
    let r := joinLoop (m.length + 1) m line count
    join_lines_aux rest
      (insertEntry (insertEntry r.1 r.2.1.start r.2.1) r.2.1.«end» r.2.1) r.2.2

/-- `plot.join_lines`: stitch 2-point fragments into maximal polylines;
the result is `set(lines_by_ends.values())`, modelled as the
deduplicated value list of the final map. -/
def join_lines (lines : List (Line α)) : List (Line α) :=
  ((join_lines_aux lines [] 0).1.map Prod.snd).dedup

/-- The number of joins performed while stitching `lines`. -/
def join_lines_count (lines : List (Line α)) : Nat :=
  (join_lines_aux lines [] 0).2

/-- Total number of points over a collection of polylines. -/
def totalPoints (ls : List (Line α)) : Nat :=
  (ls.map (fun l => l.points.length)).sum

/-- Total multiset of adjacent point pairs over a collection of
polylines. -/
def totalEdges (ls : List (Line α)) : Multiset (Sym2 α) :=
  (ls.map (fun l => (l.edges : Multiset (Sym2 α)))).sum

end Stitching

/-- C8: stitching exactly the fragments [(0,0),(1,1)] and [(1,1),(2,0)]
yields exactly one polyline, with point sequence [(0,0),(1,1),(2,0)]. -/
theorem two_fragments_stitch_into_one_polyline :
    join_lines [⟨[(⟨0, 0⟩ : Point), ⟨1, 1⟩]⟩, ⟨[⟨1, 1⟩, ⟨2, 0⟩]⟩]
      = [⟨[⟨0, 0⟩, ⟨1, 1⟩, ⟨2, 0⟩]⟩] := by
  decide

section StitchingInvariants

variable {α : Type} [DecidableEq α] [Inhabited α]

/-- The two (or, for a cyclic polyline, one) map entries under which
`join_lines` indexes a finished polyline. -/
def entriesOf (l : Line α) : List (α × Line α) :=
  if l.start = l.«end» then [(l.start, l)] else [(l.start, l), (l.«end», l)]

/-- The keys of the map are pairwise distinct (Python dict semantics). -/
def KeysNodup (m : LineMap α) : Prop :=
  (m.map Prod.fst).Nodup

theorem mem_entriesOf {l : Line α} {e : α × Line α} :
    e ∈ entriesOf l ↔ e.2 = l ∧ (e.1 = l.start ∨ e.1 = l.«end») := by
  unfold entriesOf
  split_ifs with hc
  · constructor
    · rintro h
      rcases List.mem_singleton.mp h with rfl
      exact ⟨rfl, Or.inl rfl⟩
    · rintro ⟨h2, h1 | h1⟩ <;>
      · obtain ⟨e1, e2⟩ := e
        simp_all [hc]
  · constructor
    · intro h
      rcases List.mem_cons.mp h with rfl | h
      · exact ⟨rfl, Or.inl rfl⟩
      · rcases List.mem_singleton.mp h with rfl
        exact ⟨rfl, Or.inr rfl⟩
    · rintro ⟨h2, h1 | h1⟩ <;>
      · obtain ⟨e1, e2⟩ := e
        simp only at h2 h1
        subst h2
        simp [h1]

theorem Line.start_reverse (l : Line α) : l.reverse.start = l.«end» := by
  simp [Line.start, Line.reverse, Line.«end», List.head?_reverse]

theorem Line.end_reverse (l : Line α) : l.reverse.«end» = l.start := by
  simp [Line.start, Line.reverse, Line.«end», List.getLast?_reverse]

theorem Line.length_reverse (l : Line α) : l.reverse.points.length = l.points.length := by
  simp [Line.reverse]

theorem adjPairs_cons_cons (a b : α) (rest : List α) :
    adjPairs (a :: b :: rest) = s(a, b) :: adjPairs (b :: rest) := by
  rfl

theorem adjPairs_append_cons : ∀ (xs : List α), xs ≠ [] → ∀ (y : α) (ys : List α),
    adjPairs (xs ++ y :: ys)
      = adjPairs xs ++ s(xs.getLast?.getD default, y) :: adjPairs (y :: ys) := by
  intro xs
  induction xs with
  | nil => intro h; exact absurd rfl h
  | cons a xs ih =>
    intro _ y ys
    cases xs with
    | nil => simp [adjPairs]
    | cons b xs' =>
      have hsplit : (a :: b :: xs') ++ y :: ys = a :: b :: (xs' ++ y :: ys) := rfl
      have hsplit2 : b :: (xs' ++ y :: ys) = (b :: xs') ++ y :: ys := rfl
      rw [hsplit, adjPairs_cons_cons, hsplit2, ih (by simp) y ys]
      simp [adjPairs_cons_cons, List.getLast?_cons_cons]

theorem adjPairs_reverse_perm : ∀ xs : List α,
    List.Perm (adjPairs xs.reverse) (adjPairs xs) := by
  intro xs
  induction xs with
  | nil => simp
  | cons a xs ih =>
    cases xs with
    | nil => simp
    | cons b t =>
      have hrev : (a :: b :: t).reverse = (b :: t).reverse ++ a :: [] := by
        simp
      rw [hrev, adjPairs_append_cons _ (by simp), adjPairs_cons_cons]
      have hlast : (b :: t).reverse.getLast?.getD default = b := by
        simp [List.getLast?_reverse]
      rw [hlast]
      simp only [adjPairs]
      refine (List.perm_append_singleton _ _).trans ?_
      rw [Sym2.eq_swap]
      exact ih.cons _

theorem adjPairs_length : ∀ xs : List α, xs ≠ [] → (adjPairs xs).length + 1 = xs.length := by
  intro xs
  induction xs with
  | nil => intro h; exact absurd rfl h
  | cons a xs ih =>
    intro _
    cases xs with
    | nil => simp [adjPairs]
    | cons b t =>
      rw [adjPairs_cons_cons]
      have := ih (by simp)
      simp only [List.length_cons] at this ⊢
      omega

theorem Line.edges_reverse (l : Line α) :
    (l.reverse.edges : Multiset (Sym2 α)) = (l.edges : Multiset (Sym2 α)) :=
  Multiset.coe_eq_coe.mpr (adjPairs_reverse_perm l.points)

theorem Line.join_edges (l1 l2 : Line α) (h1 : l1.points ≠ [])
    (h : l1.«end» = l2.start) :
    (l1.join l2).edges = l1.edges ++ l2.edges := by
  unfold Line.join Line.edges
  cases hp2 : l2.points with
  | nil => simp [adjPairs]
  | cons h2 t =>
    cases t with
    | nil => simp [adjPairs]
    | cons c t' =>
      simp only [List.tail_cons]
      rw [adjPairs_append_cons l1.points h1 c t']
      have hend : l1.points.getLast?.getD default = h2 := by
        have := h
        unfold Line.«end» Line.start at this
        rw [hp2] at this
        simpa using this
      rw [hend, adjPairs_cons_cons]

theorem Line.join_length (l1 l2 : Line α) (h2 : l2.points ≠ []) :
    (l1.join l2).points.length + 1 = l1.points.length + l2.points.length := by
  unfold Line.join
  cases hp2 : l2.points with
  | nil => exact absurd hp2 h2
  | cons h t => simp; omega

theorem Line.join_start (l1 l2 : Line α) (h1 : l1.points ≠ []) :
    (l1.join l2).start = l1.start := by
  unfold Line.join Line.start
  cases hp1 : l1.points with
  | nil => exact absurd hp1 h1
  | cons a t => simp

theorem Line.join_end (l1 l2 : Line α) (h1 : l1.points ≠ [])
    (h : l1.«end» = l2.start) :
    (l1.join l2).«end» = l2.«end» := by
  unfold Line.start at h
  unfold Line.«end» at h ⊢
  unfold Line.join
  simp only
  cases hp2 : l2.points with
  | nil =>
    rw [hp2] at h
    simp only [List.tail_nil, List.append_nil, List.getLast?_nil]
    simpa using h
  | cons h2 t =>
    rw [hp2] at h
    simp only [List.head?_cons, Option.getD_some] at h
    cases t with
    | nil =>
      simp only [List.tail_cons, List.append_nil]
      simpa using h
    | cons c t' =>
      simp only [List.tail_cons]
      cases hg : (c :: t').getLast? with
      | none => simp at hg
      | some x => simp [List.getLast?_append, List.getLast?_cons_cons, hg]

theorem pop_fst_none_iff (m : LineMap α) (k : α) :
    (pop m k).1 = none ↔ k ∉ m.map Prod.fst := by
  induction m with
  | nil => simp [pop]
  | cons e rest ih =>
    by_cases he : e.1 = k
    · simp [pop, he]
    · simp only [pop, if_neg he, List.map_cons, List.mem_cons]
      rw [ih]
      constructor
      · intro h
        rintro (h1 | h1)
        · exact he h1.symm
        · exact h h1
      · intro h h1
        exact h (Or.inr h1)

theorem pop_snd_none (m : LineMap α) (k : α) (h : (pop m k).1 = none) :
    (pop m k).2 = m := by
  induction m with
  | nil => rfl
  | cons e rest ih =>
    by_cases he : e.1 = k
    · simp [pop, he] at h
    · simp only [pop, if_neg he] at h ⊢
      rw [ih h]

theorem pop_some_mem (m : LineMap α) (k : α) (l : Line α)
    (h : (pop m k).1 = some l) : (k, l) ∈ m := by
  induction m with
  | nil => simp [pop] at h
  | cons e rest ih =>
    by_cases he : e.1 = k
    · simp only [pop, if_pos he, Option.some.injEq] at h
      obtain ⟨e1, e2⟩ := e
      simp only at he h
      rw [← he, ← h]
      exact List.mem_cons_self _ _
    · simp only [pop, if_neg he] at h
      exact List.mem_cons_of_mem _ (ih h)

theorem pop_some_perm (m : LineMap α) (k : α) (l : Line α)
    (h : (pop m k).1 = some l) : List.Perm m ((k, l) :: (pop m k).2) := by
  induction m with
  | nil => simp [pop] at h
  | cons e rest ih =>
    by_cases he : e.1 = k
    · simp only [pop, if_pos he, Option.some.injEq] at h ⊢
      obtain ⟨e1, e2⟩ := e
      simp only at he h
      rw [he, h]
    · simp only [pop, if_neg he] at h ⊢
      exact ((ih h).cons e).trans (List.Perm.swap _ _ _)

theorem pop_keys_sublist (m : LineMap α) (k : α) :
    ((pop m k).2.map Prod.fst).Sublist (m.map Prod.fst) := by
  induction m with
  | nil => simp [pop]
  | cons e rest ih =>
    by_cases he : e.1 = k
    · simp only [pop, if_pos he, List.map_cons]
      exact (List.sublist_cons_self _ _)
    · simp only [pop, if_neg he, List.map_cons]
      exact ih.cons₂ _

theorem keysNodup_pop (m : LineMap α) (k : α) (h : KeysNodup m) :
    KeysNodup (pop m k).2 :=
  List.Nodup.sublist (pop_keys_sublist m k) h

theorem keysNodup_eq_of_mem {m : LineMap α} (hnd : KeysNodup m)
    {k : α} {l1 l2 : Line α} (h1 : (k, l1) ∈ m) (h2 : (k, l2) ∈ m) : l1 = l2 := by
  induction m with
  | nil => cases h1
  | cons e rest ih =>
    have hnd' : KeysNodup rest := (List.nodup_cons.mp hnd).2
    have hkey : e.1 ∉ rest.map Prod.fst := (List.nodup_cons.mp hnd).1
    rcases List.mem_cons.mp h1 with rfl | h1' <;>
      rcases List.mem_cons.mp h2 with h2' | h2'
    · cases h2'
      rfl
    · exact absurd (List.mem_map.mpr ⟨(k, l2), h2', rfl⟩) hkey
    · rw [← h2'] at hkey
      exact absurd (List.mem_map.mpr ⟨(k, l1), h1', rfl⟩) hkey
    · exact ih hnd' h1' h2'

theorem insertEntry_of_not_mem (m : LineMap α) (k : α) (l : Line α)
    (h : k ∉ m.map Prod.fst) : insertEntry m k l = m ++ [(k, l)] := by
  induction m with
  | nil => rfl
  | cons e rest ih =>
    simp only [List.map_cons, List.mem_cons, not_or] at h
    have hne : ¬ e.1 = k := fun he => h.1 he.symm
    simp only [insertEntry, if_neg hne]
    rw [ih h.2]
    rfl

theorem insertEntry_last_self (m : LineMap α) (k : α) (l l' : Line α)
    (h : k ∉ m.map Prod.fst) :
    insertEntry (m ++ [(k, l)]) k l' = m ++ [(k, l')] := by
  induction m with
  | nil => simp [insertEntry]
  | cons e rest ih =>
    simp only [List.map_cons, List.mem_cons, not_or] at h
    have hne : ¬ e.1 = k := fun he => h.1 he.symm
    simp only [List.cons_append, insertEntry, if_neg hne, List.append_eq]
    rw [ih h.2]

theorem keysNodup_of_perm {m m' : LineMap α} (h : List.Perm m m') (hnd : KeysNodup m) :
    KeysNodup m' :=
  (h.map Prod.fst).nodup hnd

theorem keysNodup_cons_of_perm {m m₁ : LineMap α} {k : α} {l : Line α}
    (h : List.Perm m ((k, l) :: m₁)) (hnd : KeysNodup m) :
    k ∉ m₁.map Prod.fst ∧ KeysNodup m₁ := by
  have := keysNodup_of_perm h hnd
  simpa [KeysNodup, List.nodup_cons] using this

theorem pop_unique_spec (m : LineMap α) (k : α) (l : Line α) (hnd : KeysNodup m)
    (hmem : (k, l) ∈ m) :
    (pop m k).1 = some l ∧ List.Perm m ((k, l) :: (pop m k).2) := by
  cases hp : (pop m k).1 with
  | none =>
    have := (pop_fst_none_iff m k).mp hp
    exact absurd (List.mem_map.mpr ⟨(k, l), hmem, rfl⟩) this
  | some l₂ =>
    have hmem₂ : (k, l₂) ∈ m := pop_some_mem m k l₂ hp
    have : l₂ = l := keysNodup_eq_of_mem hnd hmem₂ hmem
    subst this
    exact ⟨rfl, pop_some_perm m k l₂ hp⟩

theorem mem_flatMap_entriesOf {pool : List (Line α)} {e : α × Line α} :
    e ∈ pool.flatMap entriesOf ↔ e.2 ∈ pool ∧ (e.1 = e.2.start ∨ e.1 = e.2.«end») := by
  rw [List.mem_flatMap]
  constructor
  · rintro ⟨l', hl', hmem⟩
    obtain ⟨h2, hd⟩ := mem_entriesOf.mp hmem
    subst h2
    exact ⟨hl', hd⟩
  · rintro ⟨hmem, hd⟩
    exact ⟨e.2, hmem, mem_entriesOf.mpr ⟨rfl, hd⟩⟩

/-- Popping a found partner and then its other index entry removes
exactly that line from the represented pool. -/
theorem pop_pair_spec (m : LineMap α) (pool : List (Line α)) (k : α) (other : Line α)
    (hrep : List.Perm m (pool.flatMap entriesOf)) (hnd : KeysNodup m)
    (hother : (pop m k).1 = some other) :
    other ∈ pool
    ∧ (if other.start = k then other else other.reverse).start = k
    ∧ List.Perm (pop (pop m k).2 (if other.start = k then other else other.reverse).«end»).2
        ((pool.erase other).flatMap entriesOf)
    ∧ KeysNodup (pop (pop m k).2 (if other.start = k then other else other.reverse).«end»).2
    ∧ (pop (pop m k).2 (if other.start = k then other else other.reverse).«end»).2.length + 1
        < m.length + 1 := by
  have hkmem : (k, other) ∈ m := pop_some_mem _ _ _ hother
  have hperm1 : List.Perm m ((k, other) :: (pop m k).2) := pop_some_perm _ _ _ hother
  have hkfl : ((k, other) : α × Line α) ∈ pool.flatMap entriesOf := hrep.mem_iff.mp hkmem
  obtain ⟨hpool, hdisj⟩ := mem_flatMap_entriesOf.mp hkfl
  simp only at hpool hdisj
  have hpoolperm : List.Perm pool (other :: pool.erase other) := List.perm_cons_erase hpool
  have hflperm : List.Perm m (entriesOf other ++ (pool.erase other).flatMap entriesOf) := by
    refine hrep.trans ?_
    refine (List.Perm.flatMap_right entriesOf hpoolperm).trans ?_
    rw [List.flatMap_cons]
  have hnd₁ : k ∉ (pop m k).2.map Prod.fst ∧ KeysNodup (pop m k).2 :=
    keysNodup_cons_of_perm hperm1 hnd
  have hlen₁ : (pop m k).2.length + 1 = m.length := by
    have := hperm1.length_eq
    simp at this
    omega
  by_cases hc : other.start = other.«end»
  · -- cyclic partner: one index entry, second pop finds nothing
    have hk : k = other.start := by
      rcases hdisj with h | h
      · exact h
      · rw [h, hc]
    have hent : entriesOf other = [(other.start, other)] := by
      simp [entriesOf, if_pos hc]
    rw [hent] at hflperm
    have hm₁ : List.Perm (pop m k).2 ((pool.erase other).flatMap entriesOf) := by
      have h₂ : List.Perm ((k, other) :: (pop m k).2)
          ((k, other) :: (pool.erase other).flatMap entriesOf) := by
        refine hperm1.symm.trans (hflperm.trans ?_)
        rw [hk]
        rfl
      exact h₂.cons_inv
    have hifpos : (if other.start = k then other else other.reverse) = other :=
      if_pos hk.symm
    rw [hifpos]
    have hpopnone : (pop (pop m k).2 other.«end»).1 = none := by
      rw [pop_fst_none_iff, ← hc, ← hk]
      exact hnd₁.1
    rw [pop_snd_none _ _ hpopnone]
    refine ⟨hpool, by rw [hk], hm₁, hnd₁.2, by omega⟩
  · -- ordinary partner: two index entries, both removed
    have hent : entriesOf other = [(other.start, other), (other.«end», other)] := by
      simp [entriesOf, if_neg hc]
    rw [hent] at hflperm
    rcases hdisj with hk | hk
    · -- found under its start key
      have hifpos : (if other.start = k then other else other.reverse) = other :=
        if_pos hk.symm
      rw [hifpos]
      have hm₁ : List.Perm (pop m k).2
          ((other.«end», other) :: (pool.erase other).flatMap entriesOf) := by
        have h₂ : List.Perm ((k, other) :: (pop m k).2)
            ((k, other) :: (other.«end», other) :: (pool.erase other).flatMap entriesOf) := by
          refine hperm1.symm.trans (hflperm.trans ?_)
          rw [hk]
          rfl
        exact h₂.cons_inv
      have hmem₂ : (other.«end», other) ∈ (pop m k).2 :=
        hm₁.mem_iff.mpr (List.mem_cons_self _ _)
      obtain ⟨hfind, hperm₂⟩ := pop_unique_spec _ _ _ hnd₁.2 hmem₂
      have hm₂ : List.Perm (pop (pop m k).2 other.«end»).2
          ((pool.erase other).flatMap entriesOf) :=
        (hperm₂.symm.trans hm₁).cons_inv
      have hnd₂ := keysNodup_cons_of_perm hperm₂ hnd₁.2
      have hlen₂ : (pop (pop m k).2 other.«end»).2.length + 1 = (pop m k).2.length := by
        have := hperm₂.length_eq
        simp at this
        omega
      exact ⟨hpool, by rw [hk], hm₂, hnd₂.2, by omega⟩
    · -- found under its end key: the partner is reversed before joining
      have hne : ¬ other.start = k := by
        rw [hk]
        exact hc
      have hifneg : (if other.start = k then other else other.reverse) = other.reverse :=
        if_neg hne
      rw [hifneg, Line.end_reverse, Line.start_reverse]
      have hm₁ : List.Perm (pop m k).2
          ((other.start, other) :: (pool.erase other).flatMap entriesOf) := by
        have h₂ : List.Perm ((k, other) :: (pop m k).2)
            ((k, other) :: (other.start, other) :: (pool.erase other).flatMap entriesOf) := by
          refine hperm1.symm.trans (hflperm.trans ?_)
          rw [hk]
          exact List.Perm.swap _ _ _
        exact h₂.cons_inv
      have hmem₂ : (other.start, other) ∈ (pop m k).2 :=
        hm₁.mem_iff.mpr (List.mem_cons_self _ _)
      obtain ⟨hfind, hperm₂⟩ := pop_unique_spec _ _ _ hnd₁.2 hmem₂
      have hm₂ : List.Perm (pop (pop m k).2 other.start).2
          ((pool.erase other).flatMap entriesOf) :=
        (hperm₂.symm.trans hm₁).cons_inv
      have hnd₂ := keysNodup_cons_of_perm hperm₂ hnd₁.2
      have hlen₂ : (pop (pop m k).2 other.start).2.length + 1 = (pop m k).2.length := by
        have := hperm₂.length_eq
        simp at this
        omega
      exact ⟨hpool, by rw [hk], hm₂, hnd₂.2, by omega⟩

theorem totalEdges_cons (l : Line α) (ls : List (Line α)) :
    totalEdges (l :: ls) = (l.edges : Multiset (Sym2 α)) + totalEdges ls := by
  simp [totalEdges]

theorem totalPoints_cons (l : Line α) (ls : List (Line α)) :
    totalPoints (l :: ls) = l.points.length + totalPoints ls := by
  simp [totalPoints]

theorem totalEdges_perm {l1 l2 : List (Line α)} (h : List.Perm l1 l2) :
    totalEdges l1 = totalEdges l2 :=
  (h.map _).sum_eq

theorem totalPoints_perm {l1 l2 : List (Line α)} (h : List.Perm l1 l2) :
    totalPoints l1 = totalPoints l2 :=
  (h.map _).sum_eq

theorem totalEdges_append (l1 l2 : List (Line α)) :
    totalEdges (l1 ++ l2) = totalEdges l1 + totalEdges l2 := by
  simp [totalEdges]

theorem totalPoints_append (l1 l2 : List (Line α)) :
    totalPoints (l1 ++ l2) = totalPoints l1 + totalPoints l2 := by
  simp [totalPoints]

/-- Postcondition of the `while` loop of `join_lines`, relative to the
pool of open polylines represented by the map, the incoming working line
and the incoming join counter: some sub-multiset `removed` of the pool
has been absorbed into the working line (conserving adjacent pairs and —
up to one shared point per join — points), the rest is still represented,
and the final working line's endpoints are free in the map. -/
def JoinLoopPost (pool : List (Line α)) (line : Line α) (count : Nat)
    (r : LineMap α × Line α × Nat) : Prop :=
  ∃ removed pool' : List (Line α),
    List.Perm pool (removed ++ pool')
    ∧ List.Perm r.1 (pool'.flatMap entriesOf)
    ∧ KeysNodup r.1
    ∧ (∀ l ∈ pool', 2 ≤ l.points.length)
    ∧ 2 ≤ r.2.1.points.length
    ∧ (r.2.1.edges : Multiset (Sym2 α)) = (line.edges : Multiset (Sym2 α)) + totalEdges removed
    ∧ r.2.1.points.length + removed.length = line.points.length + totalPoints removed
    ∧ r.2.2 = count + removed.length
    ∧ r.2.1.start ∉ r.1.map Prod.fst
    ∧ r.2.1.«end» ∉ r.1.map Prod.fst

theorem JoinLoopPost_of_reverse {pool : List (Line α)} {line : Line α} {count : Nat}
    {r : LineMap α × Line α × Nat} (h : JoinLoopPost pool line.reverse count r) :
    JoinLoopPost pool line count r := by
  obtain ⟨removed, pool', h1, h2, h3, h4, h5, h6, h7, h8, h9, h10⟩ := h
  exact ⟨removed, pool', h1, h2, h3, h4, h5,
    by rw [h6, Line.edges_reverse], by rw [← Line.length_reverse line]; exact h7,
    h8, h9, h10⟩

/-- One successful partner-finding step of the loop, assembled with the
induction hypothesis for the remaining fuel. -/
theorem joinLoop_found (fuel : Nat)
    (ih : ∀ (m : LineMap α) (pool : List (Line α)) (line : Line α) (count : Nat),
      m.length < fuel → List.Perm m (pool.flatMap entriesOf) → KeysNodup m →
      (∀ l ∈ pool, 2 ≤ l.points.length) → 2 ≤ line.points.length →
      JoinLoopPost pool line count (joinLoop fuel m line count))
    (m : LineMap α) (pool : List (Line α)) (L : Line α) (count : Nat) (other : Line α)
    (hfuel : m.length < fuel + 1)
    (hrep : List.Perm m (pool.flatMap entriesOf)) (hnd : KeysNodup m)
    (hpts : ∀ l ∈ pool, 2 ≤ l.points.length) (hL : 2 ≤ L.points.length)
    (hfound : (pop m L.«end»).1 = some other) :
    JoinLoopPost pool L count
      (joinLoop fuel
        (pop (pop m L.«end»).2 (if other.start = L.«end» then other else other.reverse).«end»).2
        (L.join (if other.start = L.«end» then other else other.reverse)) (count + 1)) := by
  obtain ⟨hpool, hostart, hrep'', hnd'', hlen''⟩ :=
    pop_pair_spec m pool L.«end» other hrep hnd hfound
  have hopts : 2 ≤ other.points.length := hpts other hpool
  have ho'pts : 2 ≤ (if other.start = L.«end» then other else other.reverse).points.length := by
    split_ifs
    · exact hopts
    · rw [Line.length_reverse]
      exact hopts
  have ho'edges : ((if other.start = L.«end» then other
      else other.reverse).edges : Multiset (Sym2 α)) = (other.edges : Multiset (Sym2 α)) := by
    split_ifs
    · rfl
    · exact Line.edges_reverse other
  have hLne : L.points ≠ [] := by
    intro hnil
    rw [hnil] at hL
    simp at hL
  have hjoin_edges : ((L.join (if other.start = L.«end» then other
      else other.reverse)).edges : Multiset (Sym2 α))
      = (L.edges : Multiset (Sym2 α)) + (other.edges : Multiset (Sym2 α)) := by
    rw [Line.join_edges _ _ hLne hostart.symm, ← Multiset.coe_add, ho'edges]
  have ho'ne : (if other.start = L.«end» then other else other.reverse).points ≠ [] := by
    intro hnil
    rw [hnil] at ho'pts
    simp at ho'pts
  have hjoin_len : (L.join (if other.start = L.«end» then other
      else other.reverse)).points.length + 1
      = L.points.length + other.points.length := by
    rw [Line.join_length _ _ ho'ne]
    congr 1
    split_ifs
    · rfl
    · exact Line.length_reverse other
  have hjoin_pts : 2 ≤ (L.join (if other.start = L.«end» then other
      else other.reverse)).points.length := by
    omega
  have hrec := ih _ (pool.erase other)
    (L.join (if other.start = L.«end» then other else other.reverse)) (count + 1)
    (by omega) hrep'' hnd''
    (fun l hl => hpts l (List.mem_of_mem_erase hl)) hjoin_pts
  obtain ⟨removed', pool'', h1, h2, h3, h4, h5, h6, h7, h8, h9, h10⟩ := hrec
  refine ⟨other :: removed', pool'', ?_, h2, h3, h4, h5, ?_, ?_, ?_, h9, h10⟩
  · refine (List.perm_cons_erase hpool).trans ?_
    exact (h1.cons other).trans (List.Perm.refl _)
  · rw [h6, hjoin_edges, totalEdges_cons]
    exact add_assoc _ _ _
  · rw [totalPoints_cons]
    simp only [List.length_cons]
    omega
  · rw [h8]
    simp only [List.length_cons]
    omega

/-- Full functional specification of the stitching `while` loop. -/
theorem joinLoop_spec : ∀ (fuel : Nat) (m : LineMap α) (pool : List (Line α))
    (line : Line α) (count : Nat),
    m.length < fuel →
    List.Perm m (pool.flatMap entriesOf) →
    KeysNodup m →
    (∀ l ∈ pool, 2 ≤ l.points.length) →
    2 ≤ line.points.length →
    JoinLoopPost pool line count (joinLoop fuel m line count) := by
  intro fuel
  induction fuel with
  | zero =>
    intro m pool line count hfuel
    omega
  | succ fuel ih =>
    intro m pool line count hfuel hrep hnd hpts hline
    cases hp : pop m line.«end» with
    | mk o m₁ =>
      cases o with
      | some other =>
        have hp1 : (pop m line.«end»).1 = some other := by rw [hp]
        have hgoal := joinLoop_found fuel ih m pool line count other hfuel hrep hnd hpts
          hline hp1
        have heq : joinLoop (fuel + 1) m line count
            = joinLoop fuel
              (pop (pop m line.«end»).2
                (if other.start = line.«end» then other else other.reverse).«end»).2
              (line.join (if other.start = line.«end» then other else other.reverse))
              (count + 1) := by
          conv_lhs => rw [joinLoop]
          simp only [hp]
        rw [heq]
        exact hgoal
      | none =>
        have hp1 : (pop m line.«end»).1 = none := by rw [hp]
        cases hp2 : pop m line.reverse.«end» with
        | mk o2 m₂ =>
          cases o2 with
          | some other =>
            have hp21 : (pop m line.reverse.«end»).1 = some other := by rw [hp2]
            have hrev2 : 2 ≤ line.reverse.points.length := by
              rw [Line.length_reverse]
              exact hline
            have hgoal := joinLoop_found fuel ih m pool line.reverse count other hfuel
              hrep hnd hpts hrev2 hp21
            have heq : joinLoop (fuel + 1) m line count
                = joinLoop fuel
                  (pop (pop m line.reverse.«end»).2
                    (if other.start = line.reverse.«end» then other
                      else other.reverse).«end»).2
                  (line.reverse.join (if other.start = line.reverse.«end» then other
                    else other.reverse))
                  (count + 1) := by
              conv_lhs => rw [joinLoop]
              simp only [hp, hp2]
            rw [heq]
            exact JoinLoopPost_of_reverse hgoal
          | none =>
            have hp21 : (pop m line.reverse.«end»).1 = none := by rw [hp2]
            have heq : joinLoop (fuel + 1) m line count = (m, line.reverse, count) := by
              conv_lhs => rw [joinLoop]
              simp only [hp, hp2]
            rw [heq]
            refine ⟨[], pool, by simpa using List.Perm.refl pool, hrep, hnd, hpts, ?_, ?_, ?_, ?_, ?_, ?_⟩
            · simpa [Line.length_reverse] using hline
            · simp [Line.edges_reverse, totalEdges]
            · simp [Line.length_reverse, totalPoints]
            · simp
            · rw [Line.start_reverse]
              exact (pop_fst_none_iff m line.«end»).mp hp1
            · rw [Line.end_reverse]
              have := (pop_fst_none_iff m line.reverse.«end»).mp hp21
              rwa [Line.end_reverse] at this

/-- Re-indexing a finished polyline under its start and end keys adds
exactly its `entriesOf` entries (one entry for a cyclic line). -/
theorem indexLine_spec (m : LineMap α) (L : Line α) (hnd : KeysNodup m)
    (hs : L.start ∉ m.map Prod.fst) (he : L.«end» ∉ m.map Prod.fst) :
    List.Perm (insertEntry (insertEntry m L.start L) L.«end» L) (entriesOf L ++ m)
    ∧ KeysNodup (insertEntry (insertEntry m L.start L) L.«end» L) := by
  by_cases hc : L.start = L.«end»
  · rw [insertEntry_of_not_mem m L.start L hs, ← hc, insertEntry_last_self m _ L L hs]
    constructor
    · have : entriesOf L = [(L.start, L)] := by
        simp [entriesOf, if_pos hc]
      rw [this]
      exact List.perm_append_comm
    · unfold KeysNodup
      rw [List.map_append]
      simp only [List.map_cons, List.map_nil]
      refine List.nodup_append.mpr ⟨hnd, List.nodup_singleton _, ?_⟩
      intro x hx hx'
      rw [List.mem_singleton] at hx'
      exact hs (hx' ▸ hx)
  · rw [insertEntry_of_not_mem m L.start L hs]
    have he2 : L.«end» ∉ (m ++ [(L.start, L)]).map Prod.fst := by
      rw [List.map_append]
      simp only [List.mem_append, List.map_cons, List.map_nil, List.mem_singleton]
      rintro (h | h)
      · exact he h
      · exact hc h.symm
    rw [insertEntry_of_not_mem _ _ _ he2]
    constructor
    · have : entriesOf L = [(L.start, L), (L.«end», L)] := by
        simp [entriesOf, if_neg hc]
      rw [this, List.append_assoc]
      exact List.perm_append_comm
    · unfold KeysNodup
      rw [List.map_append, List.map_append]
      simp only [List.map_cons, List.map_nil]
      rw [List.append_assoc]
      refine List.nodup_append.mpr ⟨hnd, ?_, ?_⟩
      · simp [hc]
      · intro x hx hx'
        simp at hx'
        rcases hx' with rfl | rfl
        · exact hs hx
        · exact he hx

/-- Full functional specification of the `for` loop of `join_lines`:
starting from a represented pool, processing `lines` yields a represented
pool conserving the adjacent-pair multiset, losing exactly one point per
join, and losing exactly one open polyline per join. -/
theorem join_lines_aux_spec : ∀ (lines : List (Line α)) (m : LineMap α) (count : Nat)
    (pool : List (Line α)),
    List.Perm m (pool.flatMap entriesOf) → KeysNodup m →
    (∀ l ∈ pool, 2 ≤ l.points.length) →
    (∀ l ∈ lines, 2 ≤ l.points.length) →
    ∃ pool' : List (Line α),
      List.Perm (join_lines_aux lines m count).1 (pool'.flatMap entriesOf)
      ∧ KeysNodup (join_lines_aux lines m count).1
      ∧ (∀ l ∈ pool', 2 ≤ l.points.length)
      ∧ totalEdges pool' = totalEdges pool + totalEdges lines
      ∧ totalPoints pool' + (join_lines_aux lines m count).2
          = totalPoints pool + totalPoints lines + count
      ∧ pool'.length + (join_lines_aux lines m count).2
          = pool.length + lines.length + count := by
  intro lines
  induction lines with
  | nil =>
    intro m count pool hrep hnd hpts hlines
    exact ⟨pool, hrep, hnd, hpts, by simp [totalEdges], by simp [totalPoints, join_lines_aux],
      by simp [join_lines_aux]⟩
  | cons line rest ih =>
    intro m count pool hrep hnd hpts hlines
    have hpost := joinLoop_spec (m.length + 1) m pool line count (by omega) hrep hnd hpts
      (hlines line (List.mem_cons_self _ _))
    obtain ⟨removed, poolMid, h1, h2, h3, h4, h5, h6, h7, h8, h9, h10⟩ := hpost
    set r := joinLoop (m.length + 1) m line count with hr
    obtain ⟨hidx, hidxnd⟩ := indexLine_spec r.1 r.2.1 h3 h9 h10
    have hrep₂ : List.Perm
        (insertEntry (insertEntry r.1 r.2.1.start r.2.1) r.2.1.«end» r.2.1)
        ((r.2.1 :: poolMid).flatMap entriesOf) := by
      refine hidx.trans ?_
      rw [List.flatMap_cons]
      exact h2.append_left (entriesOf r.2.1)
    have hpts₂ : ∀ l ∈ r.2.1 :: poolMid, 2 ≤ l.points.length := by
      intro l hl
      rcases List.mem_cons.mp hl with rfl | hl
      · exact h5
      · exact h4 l hl
    have hrec := ih _ r.2.2 (r.2.1 :: poolMid) hrep₂ hidxnd hpts₂
      (fun l hl => hlines l (List.mem_cons_of_mem _ hl))
    obtain ⟨pool', g1, g2, g3, g4, g5, g6⟩ := hrec
    have hstep : join_lines_aux (line :: rest) m count
        = join_lines_aux rest
          (insertEntry (insertEntry r.1 r.2.1.start r.2.1) r.2.1.«end» r.2.1) r.2.2 := by
      rw [join_lines_aux]
    rw [hstep]
    refine ⟨pool', g1, g2, g3, ?_, ?_, ?_⟩
    · have e2 : totalEdges pool = totalEdges removed + totalEdges poolMid := by
        rw [totalEdges_perm h1, totalEdges_append]
      rw [g4, totalEdges_cons, h6, e2, totalEdges_cons]
      abel
    · have e2 : totalPoints pool = totalPoints removed + totalPoints poolMid := by
        rw [totalPoints_perm h1, totalPoints_append]
      rw [totalPoints_cons] at g5 ⊢
      omega
    · have e2 : pool.length = removed.length + poolMid.length := by
        rw [h1.length_eq, List.length_append]
      simp only [List.length_cons] at g6 ⊢
      omega

/-- A represented pool with distinct keys is itself duplicate-free. -/
theorem pool_nodup : ∀ (pool : List (Line α)) (m : LineMap α),
    List.Perm m (pool.flatMap entriesOf) → KeysNodup m → pool.Nodup := by
  intro pool
  induction pool with
  | nil => intro m _ _; exact List.nodup_nil
  | cons l ps ih =>
    intro m hrep hnd
    rw [List.flatMap_cons] at hrep
    have hnd2 := keysNodup_of_perm hrep hnd
    unfold KeysNodup at hnd2
    rw [List.map_append] at hnd2
    obtain ⟨-, hndps, hdisj⟩ := List.nodup_append.mp hnd2
    refine List.nodup_cons.mpr ⟨?_, ih _ (List.Perm.refl _) hndps⟩
    intro hlps
    have hmem : ((l.start, l) : α × Line α) ∈ ps.flatMap entriesOf :=
      mem_flatMap_entriesOf.mpr ⟨hlps, Or.inl rfl⟩
    have hkey : l.start ∈ (ps.flatMap entriesOf).map Prod.fst :=
      List.mem_map.mpr ⟨_, hmem, rfl⟩
    have hkey0 : l.start ∈ (entriesOf l).map Prod.fst :=
      List.mem_map.mpr ⟨(l.start, l), mem_entriesOf.mpr ⟨rfl, Or.inl rfl⟩, rfl⟩
    exact hdisj hkey0 hkey

/-- The values of a represented map are exactly the pool lines. -/
theorem values_mem_iff {pool : List (Line α)} {m : LineMap α}
    (hrep : List.Perm m (pool.flatMap entriesOf)) (x : Line α) :
    x ∈ m.map Prod.snd ↔ x ∈ pool := by
  rw [List.mem_map]
  constructor
  · rintro ⟨e, he, rfl⟩
    exact (mem_flatMap_entriesOf.mp (hrep.mem_iff.mp he)).1
  · intro hx
    exact ⟨(x.start, x), hrep.mem_iff.mpr (mem_flatMap_entriesOf.mpr ⟨hx, Or.inl rfl⟩), rfl⟩

/-- Deduplicating the values of a represented map returns the pool, up to
order.  (In Python, the final `set(lines_by_ends.values())` deduplicates
by identity; under the invariant, two structurally equal map values would
occupy the same keys, so identity- and value-deduplication agree.) -/
theorem dedup_values_perm {pool : List (Line α)} {m : LineMap α}
    (hrep : List.Perm m (pool.flatMap entriesOf)) (hnd : KeysNodup m) :
    List.Perm ((m.map Prod.snd).dedup) pool := by
  refine (List.perm_ext_iff_of_nodup (List.nodup_dedup _) (pool_nodup pool m hrep hnd)).mpr ?_
  intro a
  rw [List.mem_dedup]
  exact values_mem_iff hrep a

/-- Two distinct lines of a represented pool have disjoint endpoint
sets: a shared endpoint would be a duplicated key. -/
theorem pool_endpoints_disjoint {pool : List (Line α)} {m : LineMap α}
    (hrep : List.Perm m (pool.flatMap entriesOf)) (hnd : KeysNodup m)
    {L1 L2 : Line α} (h1 : L1 ∈ pool) (h2 : L2 ∈ pool) (hne : L1 ≠ L2) :
    L1.start ≠ L2.start ∧ L1.start ≠ L2.«end»
      ∧ L1.«end» ≠ L2.start ∧ L1.«end» ≠ L2.«end» := by
  have key : ∀ (k : α), (k = L1.start ∨ k = L1.«end») → (k = L2.start ∨ k = L2.«end») → False := by
    intro k hk1 hk2
    have hm1 : ((k, L1) : α × Line α) ∈ m :=
      hrep.mem_iff.mpr (mem_flatMap_entriesOf.mpr ⟨h1, hk1⟩)
    have hm2 : ((k, L2) : α × Line α) ∈ m :=
      hrep.mem_iff.mpr (mem_flatMap_entriesOf.mpr ⟨h2, hk2⟩)
    exact hne (keysNodup_eq_of_mem hnd hm1 hm2)
  exact ⟨fun h => key _ (Or.inl rfl) (Or.inl h),
    fun h => key _ (Or.inl rfl) (Or.inr h),
    fun h => key _ (Or.inr rfl) (Or.inl h),
    fun h => key _ (Or.inr rfl) (Or.inr h)⟩

/-- Global postconditions of `join_lines`, for any input of fragments
with at least two points each: all outputs have at least two points, the
multiset of adjacent pairs is conserved, exactly one point is lost per
join, exactly one open polyline is lost per join, the outputs are
duplicate-free and pairwise endpoint-disjoint. -/
theorem join_lines_facts (lines : List (Line α))
    (h2 : ∀ l ∈ lines, 2 ≤ l.points.length) :
    (∀ L ∈ join_lines lines, 2 ≤ L.points.length)
    ∧ totalEdges (join_lines lines) = totalEdges lines
    ∧ totalPoints (join_lines lines) + join_lines_count lines = totalPoints lines
    ∧ (join_lines lines).length + join_lines_count lines = lines.length
    ∧ (join_lines lines).Nodup
    ∧ (∀ L M, L ∈ join_lines lines → M ∈ join_lines lines → L ≠ M →
        L.start ≠ M.start ∧ L.start ≠ M.«end»
          ∧ L.«end» ≠ M.start ∧ L.«end» ≠ M.«end») := by
  obtain ⟨pool, g1, g2, g3, g4, g5, g6⟩ :=
    join_lines_aux_spec lines [] 0 [] (by simp) (by simp [KeysNodup]) (by simp) h2
  have hperm : List.Perm (join_lines lines) pool :=
    dedup_values_perm g1 g2
  refine ⟨?_, ?_, ?_, ?_, ?_, ?_⟩
  · intro L hL
    exact g3 L (hperm.mem_iff.mp hL)
  · rw [totalEdges_perm hperm, g4]
    simp [totalEdges]
  · rw [totalPoints_perm hperm]
    unfold join_lines_count
    simp [totalPoints] at g5
    simpa [totalPoints] using g5
  · rw [hperm.length_eq]
    unfold join_lines_count
    simpa using g6
  · unfold join_lines
    exact List.nodup_dedup _
  · intro L M hL hM hne
    exact pool_endpoints_disjoint g1 g2 (hperm.mem_iff.mp hL) (hperm.mem_iff.mp hM) hne

/-- Number of edges of `E` incident to the vertex `x`. -/
def countV (x : α) (E : Multiset (Sym2 α)) : ℕ :=
  Multiset.card (E.filter (fun e => x ∈ e))

theorem countV_coe_nil (x : α) : countV x (↑([] : List (Sym2 α))) = 0 := by
  simp [countV]

theorem countV_coe_cons (x : α) (e : Sym2 α) (es : List (Sym2 α)) :
    countV x ↑(e :: es) = (if x ∈ e then 1 else 0) + countV x ↑es := by
  simp only [countV, ← Multiset.cons_coe, Multiset.filter_cons]
  split_ifs with h
  · simp [add_comm]
  · simp

theorem countV_add (x : α) (A B : Multiset (Sym2 α)) :
    countV x (A + B) = countV x A + countV x B := by
  simp [countV, Multiset.filter_add]

theorem countV_le_of_le {x : α} {A B : Multiset (Sym2 α)} (h : A ≤ B) :
    countV x A ≤ countV x B :=
  Multiset.card_le_card (Multiset.filter_le_filter _ h)

theorem countV_pos {x : α} {E : Multiset (Sym2 α)} {e : Sym2 α}
    (he : e ∈ E) (hx : x ∈ e) : 1 ≤ countV x E := by
  rw [Nat.one_le_iff_ne_zero]
  intro h0
  have : e ∈ E.filter (fun e => x ∈ e) := Multiset.mem_filter.mpr ⟨he, hx⟩
  rw [Multiset.card_eq_zero.mp h0] at this
  cases this

theorem countV_two {x : α} {E : Multiset (Sym2 α)} {e1 e2 : Sym2 α}
    (h1 : e1 ∈ E) (h2 : e2 ∈ E) (hne : e1 ≠ e2) (hx1 : x ∈ e1) (hx2 : x ∈ e2) :
    2 ≤ countV x E := by
  have m1 : e1 ∈ E.filter (fun e => x ∈ e) := Multiset.mem_filter.mpr ⟨h1, hx1⟩
  have m2 : e2 ∈ E.filter (fun e => x ∈ e) := Multiset.mem_filter.mpr ⟨h2, hx2⟩
  have hsub : ({e1, e2} : Finset (Sym2 α)) ⊆ (E.filter (fun e => x ∈ e)).toFinset := by
    intro a ha
    rcases Finset.mem_insert.mp ha with rfl | ha
    · exact Multiset.mem_toFinset.mpr m1
    · rw [Finset.mem_singleton.mp ha]
      exact Multiset.mem_toFinset.mpr m2
  have hcard : ({e1, e2} : Finset (Sym2 α)).card = 2 := Finset.card_pair hne
  calc (2 : ℕ) = ({e1, e2} : Finset (Sym2 α)).card := hcard.symm
    _ ≤ (E.filter (fun e => x ∈ e)).toFinset.card := Finset.card_le_card hsub
    _ ≤ Multiset.card (E.filter (fun e => x ∈ e)) := Multiset.toFinset_card_le _
    _ = countV x E := rfl

theorem countV_zero {x : α} {E : Multiset (Sym2 α)}
    (h : ∀ e ∈ E, x ∉ e) : countV x E = 0 := by
  unfold countV
  rw [Multiset.card_eq_zero, Multiset.filter_eq_nil]
  exact h

theorem adjPairs_mem_verts : ∀ (xs : List α) (e : Sym2 α), e ∈ adjPairs xs →
    ∀ y ∈ e, y ∈ xs := by
  intro xs
  induction xs with
  | nil => intro e he; cases he
  | cons a xs ih =>
    intro e he y hy
    cases xs with
    | nil => cases he
    | cons b t =>
      rw [adjPairs_cons_cons] at he
      rcases List.mem_cons.mp he with rfl | he
      · rcases Sym2.mem_iff.mp hy with rfl | rfl
        · exact List.mem_cons_self _ _
        · exact List.mem_cons_of_mem _ (List.mem_cons_self _ _)
      · exact List.mem_cons_of_mem _ (ih e he y hy)

theorem adjPairs_nodup : ∀ (xs : List α), xs.Nodup → (adjPairs xs).Nodup := by
  intro xs
  induction xs with
  | nil => intro _; exact List.nodup_nil
  | cons a xs ih =>
    intro hnd
    cases xs with
    | nil => exact List.nodup_nil
    | cons b t =>
      rw [adjPairs_cons_cons]
      refine List.nodup_cons.mpr ⟨?_, ih (List.nodup_cons.mp hnd).2⟩
      intro hmem
      have : a ∈ b :: t := adjPairs_mem_verts _ _ hmem a (Sym2.mem_mk_left a b)
      exact (List.nodup_cons.mp hnd).1 this

theorem mem_adjPairs_of_zip : ∀ (xs : List α), ∀ q ∈ xs.zip xs.tail,
    s(q.1, q.2) ∈ adjPairs xs := by
  intro xs
  induction xs with
  | nil => intro q hq; cases hq
  | cons a xs ih =>
    intro q hq
    cases xs with
    | nil => cases hq
    | cons b t =>
      simp only [List.tail_cons, List.zip_cons_cons, List.mem_cons] at hq
      rw [adjPairs_cons_cons]
      rcases hq with rfl | hq
      · exact List.mem_cons_self _ _
      · exact List.mem_cons_of_mem _ (ih q (by simpa using hq))

theorem count_one_extreme : ∀ (xs : List α) (x : α),
    countV x ↑(adjPairs xs) = 1 → xs.head? = some x ∨ xs.getLast? = some x := by
  intro xs
  induction xs with
  | nil => intro x h; simp [adjPairs, countV] at h
  | cons c xs ih =>
    intro x h
    cases xs with
    | nil =>
      simp [adjPairs, countV] at h
    | cons d t =>
      rw [adjPairs_cons_cons, countV_coe_cons] at h
      by_cases hx : x ∈ s(c, d)
      · rw [if_pos hx] at h
        have hrest : countV x ↑(adjPairs (d :: t)) = 0 := by omega
        rcases Sym2.mem_iff.mp hx with rfl | rfl
        · exact Or.inl rfl
        · cases t with
          | nil => exact Or.inr rfl
          | cons r t' =>
            exfalso
            have : (1 : ℕ) ≤ countV x ↑(adjPairs (x :: r :: t')) := by
              refine countV_pos ?_ (Sym2.mem_mk_left x r)
              rw [adjPairs_cons_cons]
              exact Multiset.mem_coe.mpr (List.mem_cons_self _ _)
            omega
      · rw [if_neg hx] at h
        rcases ih x (by omega) with hd | hl
        · exfalso
          have : d = x := by simpa using hd
          exact hx (this ▸ Sym2.mem_mk_right c d)
        · right
          rw [List.getLast?_cons_cons]
          exact hl

theorem mem_of_getLast?_eq {xs : List α} {a : α} (h : xs.getLast? = some a) : a ∈ xs := by
  have hmem : a ∈ xs.getLast? := by simp [h]
  obtain ⟨hne, heq⟩ := List.mem_getLast?_eq_getLast hmem
  rw [heq]
  exact List.getLast_mem hne

/-- Parity of vertex degrees along a walk: every vertex has even degree,
corrected by one at the head and one at the last point. -/
theorem walk_parity : ∀ (xs : List α), List.Chain' (fun p q => p ≠ q) xs → ∀ x : α,
    (countV x ↑(adjPairs xs) + (if xs.head? = some x then 1 else 0)
      + (if xs.getLast? = some x then 1 else 0)) % 2 = 0 := by
  intro xs
  induction xs with
  | nil => intro _ x; simp [adjPairs, countV]
  | cons c xs ih =>
    intro hch x
    cases xs with
    | nil =>
      simp only [adjPairs, countV_coe_nil, List.head?_cons, List.getLast?_singleton]
      split_ifs <;> rfl
    | cons d t =>
      have hne : c ≠ d := (List.chain'_cons.mp hch).1
      rw [adjPairs_cons_cons, countV_coe_cons]
      simp only [List.head?_cons, List.getLast?_cons_cons]
      have IH := ih (List.chain'_cons.mp hch).2 x
      simp only [List.head?_cons] at IH
      by_cases hxc : x = c <;> by_cases hxd : x = d
      · exact absurd (hxc ▸ hxd : c = d) hne
      · have e1 : (if x ∈ s(c, d) then 1 else 0) = 1 :=
          if_pos (by rw [hxc]; exact Sym2.mem_mk_left c d)
        have e2 : (if some c = some x then (1 : ℕ) else 0) = 1 := if_pos (by rw [hxc])
        have e3 : (if some d = some x then (1 : ℕ) else 0) = 0 :=
          if_neg (fun hh => hxd (Option.some.inj hh).symm)
        rw [e1, e2]
        rw [e3] at IH
        omega
      · have e1 : (if x ∈ s(c, d) then 1 else 0) = 1 :=
          if_pos (by rw [hxd]; exact Sym2.mem_mk_right c d)
        have e2 : (if some c = some x then (1 : ℕ) else 0) = 0 :=
          if_neg (fun hh => hxc (Option.some.inj hh).symm)
        have e3 : (if some d = some x then (1 : ℕ) else 0) = 1 := if_pos (by rw [hxd])
        rw [e1, e2]
        rw [e3] at IH
        omega
      · have e1 : (if x ∈ s(c, d) then 1 else 0) = 0 := by
          refine if_neg ?_
          rw [Sym2.mem_iff]
          rintro (rfl | rfl)
          · exact hxc rfl
          · exact hxd rfl
        have e2 : (if some c = some x then (1 : ℕ) else 0) = 0 :=
          if_neg (fun hh => hxc (Option.some.inj hh).symm)
        have e3 : (if some d = some x then (1 : ℕ) else 0) = 0 :=
          if_neg (fun hh => hxd (Option.some.inj hh).symm)
        rw [e1, e2]
        rw [e3] at IH
        omega

/-- In a duplicate-free vertex list, every vertex is incident to at most
two of the adjacent pairs, with each extreme position using up one of the
two slots. -/
theorem countV_adjPairs_nodup_bound : ∀ (xs : List α), xs.Nodup → ∀ x : α,
    countV x ↑(adjPairs xs) + (if xs.head? = some x then 1 else 0)
      + (if xs.getLast? = some x then 1 else 0) ≤ 2 := by
  intro xs
  induction xs with
  | nil => intro _ x; simp [adjPairs, countV]
  | cons c xs ih =>
    intro hnd x
    cases xs with
    | nil =>
      simp only [adjPairs, countV_coe_nil, List.head?_cons, List.getLast?_singleton]
      split_ifs <;> omega
    | cons d t =>
      have hcnotin : c ∉ d :: t := (List.nodup_cons.mp hnd).1
      rw [adjPairs_cons_cons, countV_coe_cons]
      simp only [List.head?_cons, List.getLast?_cons_cons]
      by_cases hxc : x = c
      · have hnotouch : countV x ↑(adjPairs (d :: t)) = 0 := by
          refine countV_zero ?_
          intro e he hx
          exact hcnotin (hxc ▸ adjPairs_mem_verts _ _ (Multiset.mem_coe.mp he) x hx)
        have hlast0 : (if (d :: t).getLast? = some x then (1 : ℕ) else 0) = 0 := by
          refine if_neg ?_
          intro hh
          exact hcnotin (hxc ▸ mem_of_getLast?_eq hh)
        have e2 : (if some c = some x then (1 : ℕ) else 0) = 1 := if_pos (by rw [hxc])
        rw [hnotouch, e2, hlast0]
        split_ifs <;> omega
      · have IH := ih (List.nodup_cons.mp hnd).2 x
        simp only [List.head?_cons] at IH
        have e2 : (if some c = some x then (1 : ℕ) else 0) = 0 :=
          if_neg (fun hh => hxc (Option.some.inj hh).symm)
        rw [e2]
        by_cases hxd : x = d
        · have e1 : (if x ∈ s(c, d) then 1 else 0) = 1 :=
            if_pos (by rw [hxd]; exact Sym2.mem_mk_right c d)
          have e3 : (if some d = some x then (1 : ℕ) else 0) = 1 := if_pos (by rw [hxd])
          rw [e1]
          rw [e3] at IH
          omega
        · have e1 : (if x ∈ s(c, d) then 1 else 0) = 0 := by
            refine if_neg ?_
            rw [Sym2.mem_iff]
            rintro (rfl | rfl)
            · exact hxc rfl
            · exact hxd rfl
          have e3 : (if some d = some x then (1 : ℕ) else 0) = 0 :=
            if_neg (fun hh => hxd (Option.some.inj hh).symm)
          rw [e1]
          rw [e3] at IH
          omega

theorem mem_totalEdges : ∀ (outs : List (Line α)) (e : Sym2 α),
    e ∈ totalEdges outs → ∃ L ∈ outs, e ∈ L.edges := by
  intro outs
  induction outs with
  | nil => intro e he; simp [totalEdges] at he
  | cons L rest ih =>
    intro e he
    rw [totalEdges_cons] at he
    rcases Multiset.mem_add.mp he with he | he
    · exact ⟨L, List.mem_cons_self _ _, Multiset.mem_coe.mp he⟩
    · obtain ⟨M, hM, hMe⟩ := ih e he
      exact ⟨M, List.mem_cons_of_mem _ hM, hMe⟩

theorem edges_le_totalEdges : ∀ (outs : List (Line α)) (L : Line α), L ∈ outs →
    (↑L.edges : Multiset (Sym2 α)) ≤ totalEdges outs := by
  intro outs
  induction outs with
  | nil => intro L hL; cases hL
  | cons M rest ih =>
    intro L hL
    rw [totalEdges_cons]
    rcases List.mem_cons.mp hL with rfl | hL
    · exact Multiset.le_add_right _ _
    · exact (ih L hL).trans (Multiset.le_add_left _ _)

theorem pair_le_totalEdges (outs : List (Line α)) (L M : Line α)
    (hL : L ∈ outs) (hM : M ∈ outs) (hne : M ≠ L) :
    (↑L.edges : Multiset (Sym2 α)) + (↑M.edges : Multiset (Sym2 α)) ≤ totalEdges outs := by
  have hperm : List.Perm outs (L :: outs.erase L) := List.perm_cons_erase hL
  have hM' : M ∈ outs.erase L := (List.mem_erase_of_ne hne).mpr hM
  rw [totalEdges_perm hperm, totalEdges_cons]
  exact add_le_add_left (edges_le_totalEdges _ M hM') _

theorem adjPairs_chain_share : ∀ (xs : List α),
    List.Chain' (fun e e' : Sym2 α => ∃ w, w ∈ e ∧ w ∈ e') (adjPairs xs) := by
  intro xs
  induction xs with
  | nil => exact List.chain'_nil
  | cons a xs ih =>
    cases xs with
    | nil => exact List.chain'_nil
    | cons b t =>
      rw [adjPairs_cons_cons]
      refine List.chain'_cons'.mpr ⟨?_, ih⟩
      intro y hy
      cases t with
      | nil => simp [adjPairs] at hy
      | cons c t' =>
        rw [adjPairs_cons_cons] at hy
        simp only [List.head?_cons, Option.mem_def, Option.some.injEq] at hy
        exact ⟨b, Sym2.mem_mk_right a b, hy ▸ Sym2.mem_mk_left b c⟩

theorem chain'_zip_rel {β : Type} (R : β → β → Prop) : ∀ (l : List β),
    List.Chain' R l → ∀ q ∈ l.zip l.tail, R q.1 q.2 := by
  intro l
  induction l with
  | nil => intro _ q hq; cases hq
  | cons a l ih =>
    intro hch q hq
    cases l with
    | nil => cases hq
    | cons b t =>
      simp only [List.tail_cons, List.zip_cons_cons, List.mem_cons] at hq
      rcases hq with rfl | hq
      · exact (List.chain'_cons.mp hch).1
      · exact ih (List.chain'_cons.mp hch).2 q (by simpa using hq)

theorem exists_adjacent_differing {β : Type} (p : β → Prop) : ∀ (l : List β),
    (∃ x ∈ l, p x) → (∃ y ∈ l, ¬ p y) →
    ∃ q ∈ l.zip l.tail, (p q.1 ∧ ¬ p q.2) ∨ (¬ p q.1 ∧ p q.2) := by
  intro l
  induction l with
  | nil => rintro ⟨x, hx, -⟩; cases hx
  | cons a l ih =>
    rintro ⟨x, hx, hpx⟩ ⟨y, hy, hnpy⟩
    by_cases hpa : p a
    · have hy' : y ∈ l := by
        rcases List.mem_cons.mp hy with rfl | hy'
        · exact absurd hpa hnpy
        · exact hy'
      cases l with
      | nil => cases hy'
      | cons b t =>
        by_cases hpb : p b
        · obtain ⟨q, hq, hqd⟩ := ih ⟨b, List.mem_cons_self _ _, hpb⟩ ⟨y, hy', hnpy⟩
          have hmem : q ∈ (a :: b :: t).zip (a :: b :: t).tail := by
            simp only [List.tail_cons, List.zip_cons_cons, List.mem_cons]
            exact Or.inr (by simpa using hq)
          exact ⟨q, hmem, hqd⟩
        · exact ⟨(a, b), by simp [List.zip_cons_cons], Or.inl ⟨hpa, hpb⟩⟩
    · have hx' : x ∈ l := by
        rcases List.mem_cons.mp hx with rfl | hx'
        · exact absurd hpx hpa
        · exact hx'
      cases l with
      | nil => cases hx'
      | cons b t =>
        by_cases hpb : p b
        · exact ⟨(a, b), by simp [List.zip_cons_cons], Or.inr ⟨hpa, hpb⟩⟩
        · obtain ⟨q, hq, hqd⟩ := ih ⟨x, hx', hpx⟩ ⟨b, List.mem_cons_self _ _, hpb⟩
          have hmem : q ∈ (a :: b :: t).zip (a :: b :: t).tail := by
            simp only [List.tail_cons, List.zip_cons_cons, List.mem_cons]
            exact Or.inr (by simpa using hq)
          exact ⟨q, hmem, hqd⟩

/-- Head and last of a polyline, from its point list. -/
theorem start_eq_of_head? {L : Line α} {x : α} (h : L.points.head? = some x) :
    L.start = x := by
  unfold Line.start
  rw [h]
  rfl

theorem end_eq_of_getLast? {L : Line α} {x : α} (h : L.points.getLast? = some x) :
    L.«end» = x := by
  unfold Line.«end»
  rw [h]
  rfl

/-- The central connectivity argument: if the total multiset of adjacent
pairs of a family of pairwise endpoint-disjoint, duplicate-free, nonempty
polylines is exactly a duplicate-free chain of edges in which every
vertex is incident to at most two edges and consecutive edges share a
vertex, then the family has exactly one member. -/
theorem edge_chain_single_line (outs : List (Line α)) (ces : List (Sym2 α))
    (hnodupces : ces.Nodup)
    (hchain : List.Chain' (fun e e' : Sym2 α => ∃ w, w ∈ e ∧ w ∈ e') ces)
    (hcount : ∀ w : α, countV w ↑ces ≤ 2)
    (hcons : totalEdges outs = ↑ces)
    (hnonempty : ces ≠ [])
    (houts_nodup : outs.Nodup)
    (hpts : ∀ L ∈ outs, L.edges ≠ [])
    (hdisj : ∀ L M, L ∈ outs → M ∈ outs → L ≠ M →
      L.start ≠ M.start ∧ L.start ≠ M.«end»
        ∧ L.«end» ≠ M.start ∧ L.«end» ≠ M.«end») :
    outs.length = 1 := by
  rcases outs with - | ⟨L, - | ⟨M, rest⟩⟩
  · exfalso
    apply hnonempty
    have : (↑ces : Multiset (Sym2 α)) = 0 := by
      rw [← hcons]
      simp [totalEdges]
    simpa using this
  · rfl
  exfalso
  have hLmem : L ∈ L :: M :: rest := List.mem_cons_self _ _
  have hMmem : M ∈ L :: M :: rest := List.mem_cons_of_mem _ (List.mem_cons_self _ _)
  have hLM : L ≠ M := by
    intro h
    exact (List.nodup_cons.mp houts_nodup).1 (h ▸ List.mem_cons_self _ _)
  -- the edge sets of two distinct lines cannot overlap
  have hdisjE : ∀ e, e ∈ L.edges → e ∈ M.edges → False := by
    intro e heL heM
    have hle := pair_le_totalEdges (L :: M :: rest) L M hLmem hMmem hLM.symm
    rw [hcons] at hle
    have hcnt : 2 ≤ Multiset.count e (↑ces : Multiset (Sym2 α)) := by
      calc (2 : ℕ) = 1 + 1 := rfl
        _ ≤ Multiset.count e ↑L.edges + Multiset.count e ↑M.edges := by
            have l1 : 1 ≤ Multiset.count e (↑L.edges : Multiset (Sym2 α)) :=
              Multiset.one_le_count_iff_mem.mpr (Multiset.mem_coe.mpr heL)
            have l2 : 1 ≤ Multiset.count e (↑M.edges : Multiset (Sym2 α)) :=
              Multiset.one_le_count_iff_mem.mpr (Multiset.mem_coe.mpr heM)
            omega
        _ = Multiset.count e ((↑L.edges : Multiset (Sym2 α)) + ↑M.edges) :=
            (Multiset.count_add _ _ _).symm
        _ ≤ Multiset.count e ↑ces := Multiset.count_le_of_le e hle
    have : Multiset.count e (↑ces : Multiset (Sym2 α)) ≤ 1 :=
      Multiset.nodup_iff_count_le_one.mp (by exact hnodupces) e
    omega
  -- an edge of L and an edge of M, both inside the chain
  obtain ⟨e0, he0⟩ := List.exists_mem_of_ne_nil _ (hpts L hLmem)
  obtain ⟨f0, hf0⟩ := List.exists_mem_of_ne_nil _ (hpts M hMmem)
  have hces_of_line : ∀ (N : Line α), N ∈ L :: M :: rest → ∀ e ∈ N.edges, e ∈ ces := by
    intro N hN e he
    have : e ∈ totalEdges (L :: M :: rest) :=
      Multiset.mem_of_le (edges_le_totalEdges _ N hN) (Multiset.mem_coe.mpr he)
    rw [hcons] at this
    exact Multiset.mem_coe.mp this
  obtain ⟨q, hq, hqd⟩ := exists_adjacent_differing (fun e => e ∈ L.edges) ces
    ⟨e0, hces_of_line L hLmem e0 he0, he0⟩
    ⟨f0, hces_of_line M hMmem f0 hf0, fun hf0L => hdisjE f0 hf0L hf0⟩
  have hshare : ∃ w, w ∈ q.1 ∧ w ∈ q.2 :=
    chain'_zip_rel _ ces hchain q hq
  obtain ⟨w, hw1, hw2⟩ := hshare
  have hqmem : q.1 ∈ ces ∧ q.2 ∈ ces := by
    have h1 := List.of_mem_zip hq
    exact ⟨h1.1, List.mem_of_mem_tail h1.2⟩
  -- normalise to: eL an edge of L, eO an edge not of L, sharing w
  obtain ⟨eL, eO, heL, heO, hwL, hwO⟩ :
      ∃ eL eO, eL ∈ L.edges ∧ (eO ∈ ces ∧ eO ∉ L.edges) ∧ w ∈ eL ∧ w ∈ eO := by
    rcases hqd with ⟨h1, h2⟩ | ⟨h1, h2⟩
    · exact ⟨q.1, q.2, h1, ⟨hqmem.2, h2⟩, hw1, hw2⟩
    · exact ⟨q.2, q.1, h2, ⟨hqmem.1, h1⟩, hw2, hw1⟩
  obtain ⟨M', hM'mem, hM'edge⟩ := mem_totalEdges _ eO (by rw [hcons]; exact Multiset.mem_coe.mpr heO.1)
  have hM'L : M' ≠ L := by
    rintro rfl
    exact heO.2 hM'edge
  -- vertex w is incident once to L and once to M', and to at most two chain edges
  have hsum : countV w ↑L.edges + countV w ↑M'.edges ≤ 2 := by
    have hle := pair_le_totalEdges (L :: M :: rest) L M' hLmem hM'mem hM'L
    rw [hcons] at hle
    calc countV w ↑L.edges + countV w ↑M'.edges
        = countV w ((↑L.edges : Multiset (Sym2 α)) + ↑M'.edges) := (countV_add _ _ _).symm
      _ ≤ countV w ↑ces := countV_le_of_le hle
      _ ≤ 2 := hcount w
  have hc1 : 1 ≤ countV w ↑L.edges := countV_pos (Multiset.mem_coe.mpr heL) hwL
  have hc2 : 1 ≤ countV w ↑M'.edges := countV_pos (Multiset.mem_coe.mpr hM'edge) hwO
  have hc1e : countV w ↑L.edges = 1 := by omega
  have hc2e : countV w ↑M'.edges = 1 := by omega
  have hLext : L.start = w ∨ L.«end» = w := by
    rcases count_one_extreme L.points w hc1e with h | h
    · exact Or.inl (start_eq_of_head? h)
    · exact Or.inr (end_eq_of_getLast? h)
  have hM'ext : M'.start = w ∨ M'.«end» = w := by
    rcases count_one_extreme M'.points w hc2e with h | h
    · exact Or.inl (start_eq_of_head? h)
    · exact Or.inr (end_eq_of_getLast? h)
  obtain ⟨d1, d2, d3, d4⟩ := hdisj L M' hLmem hM'mem (Ne.symm hM'L)
  rcases hLext with h | h <;> rcases hM'ext with h' | h'
  · exact d1 (h.trans h'.symm)
  · exact d2 (h.trans h'.symm)
  · exact d3 (h.trans h'.symm)
  · exact d4 (h.trans h'.symm)

theorem adjPairs_ne_nil {xs : List α} (h : 2 ≤ xs.length) : adjPairs xs ≠ [] := by
  intro h0
  have hne : xs ≠ [] := by
    intro h1
    rw [h1] at h
    simp at h
  have hlen := adjPairs_length xs hne
  rw [h0] at hlen
  simp at hlen
  omega

theorem zip_of_mem_adjPairs : ∀ (xs : List α) (e : Sym2 α), e ∈ adjPairs xs →
    ∃ q ∈ xs.zip xs.tail, e = s(q.1, q.2) := by
  intro xs
  induction xs with
  | nil => intro e he; cases he
  | cons a xs ih =>
    intro e he
    cases xs with
    | nil => cases he
    | cons b t =>
      rw [adjPairs_cons_cons] at he
      rcases List.mem_cons.mp he with rfl | he
      · exact ⟨(a, b), by simp [List.zip_cons_cons], rfl⟩
      · obtain ⟨q, hq, hqe⟩ := ih e he
        refine ⟨q, ?_, hqe⟩
        simp only [List.tail_cons, List.zip_cons_cons, List.mem_cons]
        exact Or.inr (by simpa using hq)

theorem chain'_of_zip {β : Type} (R : β → β → Prop) : ∀ (l : List β),
    (∀ q ∈ l.zip l.tail, R q.1 q.2) → List.Chain' R l := by
  intro l
  induction l with
  | nil => intro _; exact List.chain'_nil
  | cons a l ih =>
    intro h
    cases l with
    | nil => exact List.chain'_singleton a
    | cons b t =>
      refine List.chain'_cons.mpr ⟨h (a, b) (by simp [List.zip_cons_cons]), ih ?_⟩
      intro q hq
      refine h q ?_
      simp only [List.tail_cons, List.zip_cons_cons, List.mem_cons]
      exact Or.inr (by simpa using hq)

theorem head?_eq_getD {xs : List α} (h : xs ≠ []) :
    xs.head? = some (xs.head?.getD default) := by
  cases xs with
  | nil => exact absurd rfl h
  | cons a t => rfl

theorem getLast?_eq_getD {xs : List α} (h : xs ≠ []) :
    xs.getLast? = some (xs.getLast?.getD default) := by
  obtain ⟨a, ha⟩ := Option.isSome_iff_exists.mp (List.getLast?_isSome.mpr h)
  rw [ha]
  rfl

theorem head_ne_getLast_of_nodup {xs : List α} (hnd : xs.Nodup) (h2 : 2 ≤ xs.length) :
    xs.head?.getD default ≠ xs.getLast?.getD default := by
  cases xs with
  | nil => simp at h2
  | cons a t =>
    cases t with
    | nil => simp at h2
    | cons b t' =>
      intro he
      have hlast : (a :: b :: t').getLast? = (b :: t').getLast? :=
        List.getLast?_cons_cons
      have hmem : (a :: b :: t').getLast?.getD default ∈ b :: t' := by
        rw [hlast]
        exact mem_of_getLast?_eq (getLast?_eq_getD (by simp))
      simp only [List.head?_cons, Option.getD_some] at he
      rw [← he] at hmem
      exact (List.nodup_cons.mp hnd).1 hmem

theorem adjPairs_not_diag {xs : List α} (hnd : xs.Nodup) {x : α} :
    s(x, x) ∉ adjPairs xs := by
  intro hmem
  obtain ⟨q, hq, hqe⟩ := zip_of_mem_adjPairs xs _ hmem
  have hne := chain'_zip_rel (fun p q => p ≠ q) xs (List.Pairwise.chain' hnd) q hq
  rw [Sym2.eq_iff] at hqe
  rcases hqe with ⟨h1, h2⟩ | ⟨h1, h2⟩
  · exact hne (h1.symm.trans h2)
  · exact hne (h2.symm.trans h1)

/-- The closing edge of a cycle on at least three distinct points is not
one of the adjacent pairs of the open vertex list. -/
theorem closing_not_mem (xs : List α) (hnd : xs.Nodup) (h3 : 3 ≤ xs.length) :
    s(xs.getLast?.getD default, xs.head?.getD default) ∉ adjPairs xs := by
  intro hmem
  rcases xs with _ | ⟨a, _ | ⟨b, _ | ⟨c, t'⟩⟩⟩
  · simp at h3
  · simp at h3
  · simp at h3
  · obtain ⟨q, hq, hqe⟩ := zip_of_mem_adjPairs _ _ hmem
    simp only [List.head?_cons, Option.getD_some] at hqe
    have hanotin : a ∉ b :: c :: t' := (List.nodup_cons.mp hnd).1
    have hlast_mem : (a :: b :: c :: t').getLast?.getD default ∈ c :: t' := by
      rw [List.getLast?_cons_cons, List.getLast?_cons_cons]
      exact mem_of_getLast?_eq (getLast?_eq_getD (by simp))
    have hq2 : q.2 ∈ b :: c :: t' := (List.of_mem_zip hq).2
    rw [Sym2.eq_iff] at hqe
    rcases hqe with ⟨h1, h2⟩ | ⟨h1, h2⟩
    · rw [← h2] at hq2
      exact hanotin hq2
    · simp only [List.tail_cons, List.zip_cons_cons, List.mem_cons] at hq
      rcases hq with rfl | rfl | hq
      · simp only at h1
        rw [h1] at hlast_mem
        exact (List.nodup_cons.mp (List.nodup_cons.mp hnd).2).1 hlast_mem
      · simp only at h2
        rw [← h2] at hanotin
        exact hanotin (List.mem_cons_self _ _)
      · have hq1 : q.1 ∈ c :: t' := (List.of_mem_zip hq).1
        rw [← h2] at hq1
        exact hanotin (List.mem_cons_of_mem _ hq1)

/-- The adjacent pairs of a closed cycle are those of the open vertex
list plus the closing edge from the last vertex back to the first. -/
theorem cycle_adjPairs_split {c : List α} (hne : c ≠ []) :
    adjPairs (c ++ [c.head?.getD default])
      = adjPairs c ++ [s(c.getLast?.getD default, c.head?.getD default)] := by
  rw [adjPairs_append_cons c hne _ []]
  rfl

theorem countV_coe_append (x : α) (l1 l2 : List (Sym2 α)) :
    countV x ↑(l1 ++ l2) = countV x ↑l1 + countV x ↑l2 := by
  rw [← Multiset.coe_add, countV_add]

/-- Every vertex of a closed cycle on distinct points has even degree. -/
theorem cycle_countV_even {c : List α} (hnd : c.Nodup) (h3 : 3 ≤ c.length) (x : α) :
    countV x ↑(adjPairs (c ++ [c.head?.getD default])) % 2 = 0 := by
  have hne : c ≠ [] := by
    intro h
    rw [h] at h3
    simp at h3
  rw [cycle_adjPairs_split hne, countV_coe_append, countV_coe_cons, countV_coe_nil]
  have hpar := walk_parity c (List.Pairwise.chain' hnd) x
  have hheq := head?_eq_getD hne
  have hleq := getLast?_eq_getD hne
  have hne_hl := head_ne_getLast_of_nodup hnd (by omega)
  by_cases hx0 : x = c.head?.getD default
  · have e1 : (if c.head? = some x then (1 : ℕ) else 0) = 1 := if_pos (by rw [hheq, hx0])
    have e2 : (if c.getLast? = some x then (1 : ℕ) else 0) = 0 := by
      refine if_neg ?_
      rw [hleq]
      intro hh
      exact hne_hl (hx0 ▸ (Option.some.inj hh)).symm
    have e3 : (if x ∈ s(c.getLast?.getD default, c.head?.getD default) then (1 : ℕ) else 0) = 1 :=
      if_pos (by rw [hx0]; exact Sym2.mem_mk_right _ _)
    rw [e1, e2] at hpar
    rw [e3]
    omega
  · by_cases hxL : x = c.getLast?.getD default
    · have e1 : (if c.head? = some x then (1 : ℕ) else 0) = 0 := by
        refine if_neg ?_
        rw [hheq]
        intro hh
        exact hx0 (Option.some.inj hh).symm
      have e2 : (if c.getLast? = some x then (1 : ℕ) else 0) = 1 := if_pos (by rw [hleq, hxL])
      have e3 : (if x ∈ s(c.getLast?.getD default, c.head?.getD default) then (1 : ℕ) else 0) = 1 :=
        if_pos (by rw [hxL]; exact Sym2.mem_mk_left _ _)
      rw [e1, e2] at hpar
      rw [e3]
      omega
    · have e1 : (if c.head? = some x then (1 : ℕ) else 0) = 0 := by
        refine if_neg ?_
        rw [hheq]
        intro hh
        exact hx0 (Option.some.inj hh).symm
      have e2 : (if c.getLast? = some x then (1 : ℕ) else 0) = 0 := by
        refine if_neg ?_
        rw [hleq]
        intro hh
        exact hxL (Option.some.inj hh).symm
      have e3 : (if x ∈ s(c.getLast?.getD default, c.head?.getD default) then (1 : ℕ) else 0) = 0 := by
        refine if_neg ?_
        rw [Sym2.mem_iff]
        rintro (rfl | rfl)
        · exact hxL rfl
        · exact hx0 rfl
      rw [e1, e2] at hpar
      rw [e3]
      omega

/-- Every vertex of a closed cycle on distinct points is incident to at
most two of its edges. -/
theorem cycle_countV_le_two {c : List α} (hnd : c.Nodup) (h3 : 3 ≤ c.length) (x : α) :
    countV x ↑(adjPairs (c ++ [c.head?.getD default])) ≤ 2 := by
  have hne : c ≠ [] := by
    intro h
    rw [h] at h3
    simp at h3
  rw [cycle_adjPairs_split hne, countV_coe_append, countV_coe_cons, countV_coe_nil]
  have hb := countV_adjPairs_nodup_bound c hnd x
  have hheq := head?_eq_getD hne
  have hleq := getLast?_eq_getD hne
  by_cases hm : x ∈ s(c.getLast?.getD default, c.head?.getD default)
  · rw [if_pos hm]
    rcases Sym2.mem_iff.mp hm with rfl | rfl
    · have e2 : (if c.getLast? = some (c.getLast?.getD default) then (1 : ℕ) else 0) = 1 :=
        if_pos hleq
      rw [e2] at hb
      have hmono : countV (c.getLast?.getD default) ↑(adjPairs c) + 1
          ≤ (countV (c.getLast?.getD default) ↑(adjPairs c)
            + (if c.head? = some (c.getLast?.getD default) then 1 else 0)) + 1 :=
        Nat.add_le_add_right (Nat.le_add_right _ _) 1
      exact le_trans hmono hb
    · have e1 : (if c.head? = some (c.head?.getD default) then (1 : ℕ) else 0) = 1 :=
        if_pos hheq
      rw [e1] at hb
      have hmono : countV (c.head?.getD default) ↑(adjPairs c) + (1 + 0)
          ≤ (countV (c.head?.getD default) ↑(adjPairs c) + 1)
            + (if c.getLast? = some (c.head?.getD default) then 1 else 0) :=
        Nat.le_add_right _ _
      exact le_trans hmono hb
  · rw [if_neg hm]
    have hmono : countV x ↑(adjPairs c) + (0 + 0)
        ≤ (countV x ↑(adjPairs c) + (if c.head? = some x then 1 else 0))
          + (if c.getLast? = some x then 1 else 0) :=
      Nat.add_le_add (Nat.add_le_add_left (Nat.zero_le _) _) (Nat.zero_le _)
  -- countV + (0+0) vs (countV + i1) + i2
    exact le_trans hmono hb

/-- Fragments whose edges form one simple open path stitch into exactly
one polyline, losing exactly one point per join. -/
theorem path_scenario (frags : List (Line α))
    (h2 : ∀ l ∈ frags, 2 ≤ l.points.length)
    (p : List α) (hnd : p.Nodup) (hlen : 2 ≤ p.length)
    (hedges : totalEdges frags = ↑(adjPairs p)) :
    ∃ L, join_lines frags = [L]
      ∧ L.points.length + frags.length = totalPoints frags + 1 := by
  obtain ⟨g1, g2, g3, g4, g5, g6⟩ := join_lines_facts frags h2
  have hcons : totalEdges (join_lines frags) = ↑(adjPairs p) := by rw [g2, hedges]
  have hone : (join_lines frags).length = 1 := by
    refine edge_chain_single_line (join_lines frags) (adjPairs p)
      (adjPairs_nodup p hnd) (adjPairs_chain_share p) ?_ hcons
      (adjPairs_ne_nil hlen) g5 ?_ g6
    · intro w
      have hb := countV_adjPairs_nodup_bound p hnd w
      have hmono : countV w ↑(adjPairs p)
          ≤ (countV w ↑(adjPairs p) + (if p.head? = some w then 1 else 0))
            + (if p.getLast? = some w then 1 else 0) :=
        le_trans (Nat.le_add_right _ _) (Nat.le_add_right _ _)
      exact le_trans hmono hb
    · intro L hL
      exact adjPairs_ne_nil (g1 L hL)
  obtain ⟨L, hL⟩ := List.length_eq_one.mp hone
  refine ⟨L, hL, ?_⟩
  rw [hL] at g3 g4
  simp only [totalPoints, List.map_cons, List.map_nil, List.sum_cons, List.sum_nil,
    List.length_cons, List.length_nil] at g3 g4
  simp only [totalPoints]
  omega

/-- Fragments whose edges form one closed cycle on at least three
distinct points stitch into exactly one polyline that starts and ends at
the same point. -/
theorem cycle_scenario (frags : List (Line α))
    (h2 : ∀ l ∈ frags, 2 ≤ l.points.length)
    (c : List α) (hnd : c.Nodup) (h3 : 3 ≤ c.length)
    (hedges : totalEdges frags = ↑(adjPairs (c ++ [c.head?.getD default]))) :
    ∃ L, join_lines frags = [L] ∧ L.start = L.«end» := by
  have hne : c ≠ [] := by
    intro h
    rw [h] at h3
    simp at h3
  obtain ⟨g1, g2, g3, g4, g5, g6⟩ := join_lines_facts frags h2
  have hcons : totalEdges (join_lines frags)
      = ↑(adjPairs (c ++ [c.head?.getD default])) := by rw [g2, hedges]
  have hsplit := cycle_adjPairs_split hne
  have hnodup_ces : (adjPairs (c ++ [c.head?.getD default])).Nodup := by
    rw [hsplit]
    refine List.Nodup.append (adjPairs_nodup c hnd) (List.nodup_singleton _) ?_
    intro e he1 he2
    rw [List.mem_singleton] at he2
    subst he2
    exact closing_not_mem c hnd h3 he1
  have hclen : 2 ≤ (c ++ [c.head?.getD default]).length := by
    simp only [List.length_append, List.length_cons, List.length_nil]
    omega
  have hone : (join_lines frags).length = 1 := by
    refine edge_chain_single_line (join_lines frags) _
      hnodup_ces (adjPairs_chain_share _) (cycle_countV_le_two hnd h3) hcons
      (adjPairs_ne_nil hclen) g5 ?_ g6
    intro L hL
    exact adjPairs_ne_nil (g1 L hL)
  obtain ⟨L, hL⟩ := List.length_eq_one.mp hone
  refine ⟨L, hL, ?_⟩
  have hLmem : L ∈ join_lines frags := by
    rw [hL]
    exact List.mem_cons_self _ _
  have hLpts : 2 ≤ L.points.length := g1 L hLmem
  have hLe : (↑(adjPairs L.points) : Multiset (Sym2 α))
      = ↑(adjPairs (c ++ [c.head?.getD default])) := by
    rw [hL] at hcons
    simp only [totalEdges, List.map_cons, List.map_nil, List.sum_cons, List.sum_nil,
      add_zero] at hcons
    exact hcons
  have hchainL : List.Chain' (fun p q => p ≠ q) L.points := by
    refine chain'_of_zip _ _ ?_
    intro q hq heq
    have hmem : s(q.1, q.2) ∈ adjPairs L.points := mem_adjPairs_of_zip L.points q hq
    rw [heq] at hmem
    have hmem2 : s(q.2, q.2) ∈ adjPairs (c ++ [c.head?.getD default]) := by
      have hm : s(q.2, q.2) ∈ (↑(adjPairs L.points) : Multiset (Sym2 α)) :=
        Multiset.mem_coe.mpr hmem
      rw [hLe] at hm
      exact Multiset.mem_coe.mp hm
    rw [hsplit] at hmem2
    have hhl := head_ne_getLast_of_nodup hnd (by omega)
    rcases List.mem_append.mp hmem2 with h | h
    · exact adjPairs_not_diag hnd h
    · rw [List.mem_singleton, Sym2.eq_iff] at h
      rcases h with ⟨ha, hb⟩ | ⟨ha, hb⟩
      · exact hhl (hb.symm.trans ha)
      · exact hhl (ha.symm.trans hb)
  have hLne : L.points ≠ [] := by
    intro h0
    rw [h0] at hLpts
    simp at hLpts
  have hpar := walk_parity L.points hchainL L.start
  have e1 : (if L.points.head? = some L.start then (1 : ℕ) else 0) = 1 :=
    if_pos (head?_eq_getD hLne)
  rw [e1, hLe] at hpar
  have hev := cycle_countV_even hnd h3 L.start
  by_cases hl : L.points.getLast? = some L.start
  · exact (end_eq_of_getLast? hl).symm
  · exfalso
    have e2 : (if L.points.getLast? = some L.start then (1 : ℕ) else 0) = 0 := if_neg hl
    rw [e2] at hpar
    omega

end StitchingInvariants

/-- The literal stitching postcondition claimed for `join_lines`: for
every input of 2-point fragments, every input fragment's points appear
in exactly ONE output polyline, the total output point count equals the
input point count minus one per join performed, fragments forming one
simple connected path stitch into exactly one polyline with point count
(sum of fragment point counts) − (N−1), and fragments forming a closed
loop stitch into exactly one polyline whose start equals its end. -/
def ClaimC7 : Prop :=
  ∀ frags : List (Line Point), (∀ l ∈ frags, l.points.length = 2) →
    (∀ f ∈ frags, ∀ x ∈ f.points,
      ∃ L ∈ join_lines frags, x ∈ L.points
        ∧ ∀ M ∈ join_lines frags, x ∈ M.points → M = L)
    ∧ totalPoints (join_lines frags) + join_lines_count frags = totalPoints frags
    ∧ (∀ p : List Point, p.Nodup → 2 ≤ p.length →
        totalEdges frags = ↑(adjPairs p) →
        ∃ L, join_lines frags = [L]
          ∧ L.points.length + frags.length = totalPoints frags + 1)
    ∧ (∀ c : List Point, c.Nodup → 3 ≤ c.length →
        totalEdges frags = ↑(adjPairs (c ++ [c.head?.getD default])) →
        ∃ L, join_lines frags = [L] ∧ L.start = L.«end»)

/-- C7 (counterexample): the first conjunct of the claimed postcondition
is false.  Two X-crossing chains sharing the interior edge points (1,0)
and (2,0) stitch into TWO polylines that both contain those points, so an
input fragment's points can appear in more than one output polyline. -/
theorem join_lines_shared_point_counterexample : ¬ ClaimC7 := by
  intro h
  obtain ⟨h1, -, -, -⟩ := h
    [⟨[(⟨0, 0⟩ : Point), ⟨1, 0⟩]⟩, ⟨[⟨1, 0⟩, ⟨2, 0⟩]⟩, ⟨[⟨2, 0⟩, ⟨3, 0⟩]⟩,
     ⟨[⟨0, 1⟩, ⟨1, 0⟩]⟩, ⟨[⟨1, 0⟩, ⟨2, 0⟩]⟩, ⟨[⟨2, 0⟩, ⟨3, 1⟩]⟩]
    (by decide)
  obtain ⟨L, hL, hxL, huniq⟩ := h1 ⟨[⟨1, 0⟩, ⟨2, 0⟩]⟩ (by decide) ⟨1, 0⟩ (by decide)
  have e1 := huniq ⟨[⟨0, 1⟩, ⟨1, 0⟩, ⟨2, 0⟩, ⟨3, 1⟩]⟩ (by decide) (by decide)
  have e2 := huniq ⟨[⟨0, 0⟩, ⟨1, 0⟩, ⟨2, 0⟩, ⟨3, 0⟩]⟩ (by decide) (by decide)
  have e3 : (⟨[⟨0, 1⟩, ⟨1, 0⟩, ⟨2, 0⟩, ⟨3, 1⟩]⟩ : Line Point)
      = ⟨[⟨0, 0⟩, ⟨1, 0⟩, ⟨2, 0⟩, ⟨3, 0⟩]⟩ := e1.trans e2.symm
  exact absurd e3 (by decide)

/-- C7 (amended): postconditions of `join_lines` on 2-point fragments.
Every input fragment's points appear in AT LEAST one output polyline
(not exactly one: a point interior to two chains is kept in both), the
multiset of adjacent point pairs is conserved, the total output point
count equals the input point count minus one per join performed, one
polyline is lost per join, fragments whose edges form one simple open
path stitch into exactly one polyline with point count (sum of fragment
point counts) − (N−1), and fragments whose edges form one closed cycle
on at least three distinct points stitch into exactly one polyline whose
start equals its end. -/
theorem join_lines_postconditions {α : Type} [DecidableEq α] [Inhabited α]
    (frags : List (Line α)) (h2 : ∀ l ∈ frags, l.points.length = 2) :
    (∀ f ∈ frags, ∀ x ∈ f.points, ∃ L ∈ join_lines frags, x ∈ L.points)
    ∧ totalEdges (join_lines frags) = totalEdges frags
    ∧ totalPoints (join_lines frags) + join_lines_count frags = totalPoints frags
    ∧ (join_lines frags).length + join_lines_count frags = frags.length
    ∧ (∀ p : List α, p.Nodup → 2 ≤ p.length →
        totalEdges frags = ↑(adjPairs p) →
        ∃ L, join_lines frags = [L]
          ∧ L.points.length + frags.length = totalPoints frags + 1)
    ∧ (∀ c : List α, c.Nodup → 3 ≤ c.length →
        totalEdges frags = ↑(adjPairs (c ++ [c.head?.getD default])) →
        ∃ L, join_lines frags = [L] ∧ L.start = L.«end») := by
  have h2' : ∀ l ∈ frags, 2 ≤ l.points.length := by
    intro l hl
    rw [h2 l hl]
  obtain ⟨g1, g2, g3, g4, g5, g6⟩ := join_lines_facts frags h2'
  refine ⟨?_, g2, g3, g4,
    fun p a b cc => path_scenario frags h2' p a b cc,
    fun c a b d => cycle_scenario frags h2' c a b d⟩
  intro f hf x hx
  obtain ⟨a, b, hab⟩ := List.length_eq_two.mp (h2 f hf)
  have hedge : s(a, b) ∈ f.edges := by
    unfold Line.edges
    rw [hab]
    exact List.mem_cons_self _ _
  have hmem1 : s(a, b) ∈ totalEdges frags :=
    Multiset.mem_of_le (edges_le_totalEdges frags f hf) (Multiset.mem_coe.mpr hedge)
  have hmem2 : s(a, b) ∈ totalEdges (join_lines frags) := by
    rw [g2]
    exact hmem1
  obtain ⟨L, hL, hLe⟩ := mem_totalEdges _ _ hmem2
  refine ⟨L, hL, ?_⟩
  have hxe : x ∈ s(a, b) := by
    rw [hab] at hx
    rcases List.mem_cons.mp hx with rfl | hx
    · exact Sym2.mem_mk_left _ _
    · rw [List.mem_singleton.mp hx]
      exact Sym2.mem_mk_right _ _
  exact adjPairs_mem_verts L.points _ hLe x hxe

/-- The amended C7 theorem at the two-fragment input of the spec's
worked example: the hypothesis holds and the point count is conserved up
to one point per join. -/
theorem join_lines_postconditions_witness :
    (∀ l ∈ ([⟨[⟨0, 0⟩, ⟨1, 1⟩]⟩, ⟨[⟨1, 1⟩, ⟨2, 0⟩]⟩] : List (Line Point)),
      l.points.length = 2)
    ∧ totalPoints (join_lines ([⟨[⟨0, 0⟩, ⟨1, 1⟩]⟩, ⟨[⟨1, 1⟩, ⟨2, 0⟩]⟩] : List (Line Point)))
        + join_lines_count ([⟨[⟨0, 0⟩, ⟨1, 1⟩]⟩, ⟨[⟨1, 1⟩, ⟨2, 0⟩]⟩] : List (Line Point))
      = totalPoints ([⟨[⟨0, 0⟩, ⟨1, 1⟩]⟩, ⟨[⟨1, 1⟩, ⟨2, 0⟩]⟩] : List (Line Point)) :=
  ⟨by decide, (join_lines_postconditions _ (by decide)).2.2.1⟩

end StlPlot
